import Mathlib

/-!
Shallow embedding of `src/bib_sorter.py` (IEEE_latex_bib_sorter).

Strings are modelled as `List Char`.  Python float positions
(`position + i * 0.001`, bib_sorter.py line 63) are modelled as exact
rationals.  Python's `re` module is modelled by direct recursive scanners
that implement the leftmost, non-overlapping match semantics of the three
concrete patterns the program uses.  File I/O and console printing are not
modelled; the driver `reorder_latex_bibliography` is embedded as a pure
function into `Except`, where an `error` result corresponds to the Python
function returning `False` before any output file is written (after which
`main` exits with a non-zero status).
-/

namespace BibSorter

/-- Python whitespace test used by both `str.strip()` and the regex class
`\s` (restricted to the ASCII whitespace characters; non-ASCII Unicode
whitespace is not modelled). -/
def isPySpace (c : Char) : Bool :=
  c == ' ' || c == '\t' || c == '\n' || c == '\r' || c == '\x0b' || c == '\x0c'

/-- Python `str.strip()`: drop leading and trailing whitespace. -/
def pyStrip (l : List Char) : List Char :=
  ((l.dropWhile isPySpace).reverse.dropWhile isPySpace).reverse

/-- One leftmost match of the pattern `\n\s*\n+` at the head of the list
(bib_sorter.py line 99).  Returns the remainder after the matched span.
The regex engine consumes the initial newline, then (after greedy
backtracking of `\s*` against the final `\n+`) every whitespace character
up to and including the last newline of the maximal whitespace run. -/
def matchBlank : List Char → Option (List Char)
  | [] => none
  | c :: cs =>
    if c = '\n' then
      let w := cs.takeWhile isPySpace
      let after := cs.dropWhile isPySpace
      let revC := w.reverse.dropWhile (fun x => x != '\n')
      if revC.isEmpty then none
      else some ((w.reverse.takeWhile (fun x => x != '\n')).reverse ++ after)
    else none

/-- Fuelled scanner for `re.sub(r'\n\s*\n+', '\n', s)` (bib_sorter.py
line 99): replace each leftmost match by a single newline and continue
after it. -/
def subBlankF : Nat → List Char → List Char
  | 0, l => l
  | _ + 1, [] => []
  | f + 1, c :: cs =>
    match matchBlank (c :: cs) with
    | some rem => '\n' :: subBlankF f rem
    | none => c :: subBlankF f cs

/-- The blank-line collapsing substitution of bib_sorter.py line 99. -/
def subBlank (l : List Char) : List Char := subBlankF l.length l

/-- Whether the pattern `\n\s*\n+` matches anywhere in the list. -/
def hasPat : List Char → Bool
  | [] => false
  | c :: cs => (matchBlank (c :: cs)).isSome || hasPat cs

/-- Normalization applied to each bibliography entry body
(bib_sorter.py lines 96-100): `strip`, collapse blank-line runs, `strip`. -/
def normalizeBody (l : List Char) : List Char :=
  pyStrip (subBlank (pyStrip l))

/-- The literal `\cite` (head of the citation pattern, line 52). -/
def citeLit : List Char := "\\cite".data

/-- The literal `\begin{thebibliography}` (line 73). -/
def beginLit : List Char := "\\begin\x7bthebibliography\x7d".data

/-- The literal `\end{thebibliography}` (line 74). -/
def endLit : List Char := "\\end\x7bthebibliography\x7d".data

/-- The literal `\bibitem{` (head of the bibitem pattern, line 91). -/
def bibitemLit : List Char := "\\bibitem\x7b".data

/-- Index of the first occurrence of a literal in a list (`re.search`
with a literal pattern). -/
def findLit (lit : List Char) : List Char → Option Nat
  | [] => if lit.isEmpty then some 0 else none
  | c :: cs =>
    if (c :: cs).take lit.length = lit then some 0
    else (findLit lit cs).map (· + 1)

/-- The literal occurs at index `i`. -/
def occursAt (lit l : List Char) (i : Nat) : Prop :=
  (l.drop i).take lit.length = lit

/-- The optional bracket group `(?:\[[^\]]*\])?` of the citation pattern:
if the text continues with `[`, consume through the first `]` (failing
when there is none, since the empty alternative then stalls on the `[`);
otherwise consume nothing. -/
def bracketSkip (r1 : List Char) : Option (List Char) :=
  match r1 with
  | '[' :: t =>
    match t.dropWhile (fun x => x != ']') with
    | ']' :: r => some r
    | _ => none
  | _ => some r1

/-- The required part `\{([^}]+)\}` of the citation pattern: a brace, a
nonempty run of non-brace characters (the capture), a closing brace. -/
def braceBody (r2 : List Char) : Option (List Char × List Char) :=
  match r2 with
  | '{' :: t =>
    let body := t.takeWhile (fun x => x != '}')
    if body.isEmpty then none
    else
      match t.dropWhile (fun x => x != '}') with
      | '}' :: r => some (body, r)
      | _ => none
  | _ => none

/-- Attempt to match `\cite(?:\[[^\]]*\])?\{([^}]+)\}` (line 52) at the
head of the list.  Returns the captured brace body and the remainder after
the whole match; fails exactly when the regex fails to match here. -/
def tryCite (cs : List Char) : Option (List Char × List Char) :=
  if cs.take 5 = citeLit then
    match bracketSkip (cs.drop 5) with
    | none => none
    | some r2 => braceBody r2
  else none

/-- Fuelled model of `re.finditer` with the citation pattern
(bib_sorter.py line 54): leftmost matches, scanning resumes after each
match; produces the list of (match start position, brace body). -/
def scanCiteF : Nat → Nat → List Char → List (Nat × List Char)
  | 0, _, _ => []
  | _ + 1, _, [] => []
  | f + 1, pos, c :: cs =>
    match tryCite (c :: cs) with
    | some (body, rem) =>
      (pos, body) :: scanCiteF f (pos + ((c :: cs).length - rem.length)) rem
    | none => scanCiteF f (pos + 1) cs

/-- All citation-pattern matches of a document with their start offsets. -/
def scanCitations (cs : List Char) : List (Nat × List Char) :=
  scanCiteF cs.length 0 cs

/-- Python `str.split(',')` on a character list (line 60). -/
def splitComma : List Char → List (List Char)
  | [] => [[]]
  | c :: t =>
    if c = ',' then [] :: splitComma t
    else
      match splitComma t with
      | h :: r => (c :: h) :: r
      | [] => [[c]]

/-- Occurrences emitted for one multi-key marker: position `p + i * 0.001`
(line 63, floats read as exact rationals) and the stripped key. -/
def groupOccs (p : Nat) : Nat → List (List Char) → List (ℚ × List Char)
  | _, [] => []
  | i, k :: t => (((p : ℚ) + (i : ℚ) * (1 / 1000)), pyStrip k) :: groupOccs p (i + 1) t

/-- Expansion of scanner matches into individual citation occurrences
(bib_sorter.py lines 58-65). -/
def expandOccurrences : List (Nat × List Char) → List (ℚ × List Char)
  | [] => []
  | m :: t =>
    (if ',' ∈ m.2 then groupOccs m.1 0 (splitComma m.2)
     else [((m.1 : ℚ), pyStrip m.2)]) ++ expandOccurrences t

/-- The ordered occurrence sequence of a document. -/
def citationOccurrences (cs : List Char) : List (ℚ × List Char) :=
  expandOccurrences (scanCitations cs)

/-- CitationTracker.add_citation (lines 13-22): strip the key and record
it with its position only on first appearance.  The tracker's OrderedDict
is modelled as an association list in insertion order. -/
def addCitation (citations : List (List Char × ℚ)) (pos : ℚ) (key : List Char) :
    List (List Char × ℚ) :=
  let k := pyStrip key
  if citations.any (fun p => p.1 = k) then citations else citations ++ [(k, pos)]

/-- find_all_citations (lines 47-67): fold every occurrence into the
tracker.  (The tracker's debug-only citation_positions list is not
modelled.) -/
def findAllCitations (cs : List Char) : List (List Char × ℚ) :=
  (citationOccurrences cs).foldl (fun acc o => addCitation acc o.1 o.2) []

/-- Stable insertion into a list sorted by position: the new element goes
before the first element whose position is not smaller. -/
def insSorted (x : List Char × ℚ) : List (List Char × ℚ) → List (List Char × ℚ)
  | [] => [x]
  | y :: t => if y.2 < x.2 then y :: insSorted x t else x :: y :: t

/-- Stable sort by position, modelling Python's stable
`sorted(self.citations.items(), key=lambda x: x[1])` (line 27). -/
def sortByPos (l : List (List Char × ℚ)) : List (List Char × ℚ) :=
  l.foldr insSorted []

/-- get_ordered_citations (lines 24-28). -/
def getOrderedCitations (citations : List (List Char × ℚ)) : List (List Char) :=
  (sortByPos citations).map Prod.fst

/-- The resolved citation order of a document. -/
def orderedCitations (cs : List Char) : List (List Char) :=
  getOrderedCitations (findAllCitations cs)

/-- Earliest start index of an occurrence of either `\bibitem{` or
`\end{thebibliography}`: the lookahead of the bibitem pattern (line 91). -/
def contentEnd (cs : List Char) : Option Nat :=
  match findLit bibitemLit cs, findLit endLit cs with
  | some a, some b => some (min a b)
  | some a, none => some a
  | none, some b => some b
  | none, none => none

/-- Attempt to match `\bibitem\{([^}]+)\}(.*?)(?=\\bibitem\{|\\end\{thebibliography\})`
(line 91, DOTALL) at the head of the list.  Returns (raw key, raw content,
remainder starting at the lookahead position). -/
def tryBibitem (cs : List Char) : Option (List Char × List Char × List Char) :=
  if cs.take 9 = bibitemLit then
    let r1 := cs.drop 9
    let key := r1.takeWhile (fun x => x != '}')
    if key.isEmpty then none
    else
      match r1.dropWhile (fun x => x != '}') with
      | '}' :: r2 =>
        match contentEnd r2 with
        | some j => some (key, r2.take j, r2.drop j)
        | none => none
      | _ => none
  else none

/-- Fuelled model of `re.finditer` with the bibitem pattern over the
bibliography section (line 94). -/
def bibitemScanF : Nat → List Char → List (List Char × List Char)
  | 0, _ => []
  | _ + 1, [] => []
  | f + 1, c :: cs =>
    match tryBibitem (c :: cs) with
    | some (k, v, rem) => (k, v) :: bibitemScanF f rem
    | none => bibitemScanF f cs

/-- All bibitem matches (raw key, raw content) of a bibliography section. -/
def bibitemScan (cs : List Char) : List (List Char × List Char) :=
  bibitemScanF cs.length cs

/-- Python dict assignment `entries[k] = v`: an existing key keeps its
insertion position and gets the new value; a new key is appended. -/
def insertEntry (d : List (List Char × List Char)) (k v : List Char) :
    List (List Char × List Char) :=
  if d.any (fun p => p.1 = k) then
    d.map (fun p => if p.1 = k then (p.1, v) else p)
  else d ++ [(k, v)]

/-- The entries dict built from the bibitem matches (lines 92-102):
stripped key, normalized body, last write wins. -/
def buildEntries (ms : List (List Char × List Char)) : List (List Char × List Char) :=
  ms.foldl (fun d m => insertEntry d (pyStrip m.1) (normalizeBody m.2)) []

/-- Result of extract_bibliography_entries (lines 70-104). -/
structure BibExtract where
  entries : List (List Char × List Char)
  bibStart : Nat
  bibEnd : Nat
  openingLine : List Char
  deriving DecidableEq

/-- extract_bibliography_entries (lines 70-104): locate the delimiters,
slice the section, take the opening line, scan the bibitem entries.
Returns none when either delimiter is absent (lines 76-78). -/
def extractBibliographyEntries (cs : List Char) : Option BibExtract :=
  match findLit beginLit cs, findLit endLit cs with
  | some bs, some be0 =>
    let be := be0 + endLit.length
    let sec := (cs.drop bs).take (be - bs)
    let opening :=
      match findLit beginLit sec with
      | some i => (sec.drop i).takeWhile (fun x => x != '\n')
      | none => beginLit
    some ⟨buildEntries (bibitemScan sec), bs, be, opening⟩
  | _, _ => none

/-- Formatted entry text `f"\\bibitem{{{k}}}\n{v}"` (line 120). -/
def fmtEntry (k v : List Char) : List Char :=
  bibitemLit ++ k ++ '}' :: '\n' :: v

/-- Python `'\n\n'.join` (line 139). -/
def joinBlank : List (List Char) → List Char
  | [] => []
  | [x] => x
  | x :: y :: t => x ++ '\n' :: '\n' :: joinBlank (y :: t)

/-- Lookup in an association list (Python dict lookup). -/
def assocFind {β : Type} (d : List (List Char × β)) (k : List Char) : Option β :=
  match d with
  | [] => none
  | (a, v) :: t => if a = k then some v else assocFind t k

/-- The citation-order pass of create_reordered_bibliography
(lines 112-125): fold over the citation order, appending the formatted
entry and marking the key used whenever the key is present. -/
def matchPass (order : List (List Char)) (entries : List (List Char × List Char)) :
    List (List Char) × List (List Char) :=
  order.foldl
    (fun acc k =>
      match assocFind entries k with
      | some v => (acc.1 ++ [fmtEntry k v], acc.2 ++ [k])
      | none => acc)
    ([], [])

/-- Serialization of the reconstructed section (lines 137-140). -/
def serializeBib (opening : List Char) (fmts : List (List Char)) : List Char :=
  opening ++ '\n' :: '\n' :: joinBlank fmts ++ '\n' :: endLit

/-- create_reordered_bibliography (lines 107-142): none on an empty
entries dict (lines 109-110); otherwise matched entries in citation order
followed by unused entries in original dict order. -/
def createReorderedBibliography (order : List (List Char))
    (entries : List (List Char × List Char)) (opening : List Char) :
    Option (List Char) :=
  if entries.isEmpty then none
  else
    let m := matchPass order entries
    let unused := (entries.map Prod.fst).filter (fun k => !(decide (k ∈ m.2)))
    some (serializeBib opening
      (m.1 ++ unused.map (fun k => fmtEntry k ((assocFind entries k).getD []))))

/-- The used-citations set of the reconciler (bib_sorter.py line 113), as
the list of keys in the order they were marked. -/
def usedKeys (order : List (List Char)) (entries : List (List Char × List Char)) :
    List (List Char) :=
  (matchPass order entries).2

/-- Keys of the reconciled block: cited-and-present keys in citation
order, then uncited keys in original dict order (bib_sorter.py
lines 115-135). -/
def reconciledKeys (order : List (List Char)) (entries : List (List Char × List Char)) :
    List (List Char) :=
  usedKeys order entries ++
    (entries.map Prod.fst).filter (fun k => !(decide (k ∈ usedKeys order entries)))

/-- The reconciled block as a list of (key, body) pairs: cited-and-present
entries in citation order, then uncited entries in original dict order. -/
def reconPairs (order : List (List Char)) (entries : List (List Char × List Char)) :
    List (List Char × List Char) :=
  (order.filter (fun k => (assocFind entries k).isSome)).map
      (fun k => (k, (assocFind entries k).getD [])) ++
    entries.filter (fun p => !(decide (p.1 ∈ usedKeys order entries)))

/-- The raw (key, content) matches the bibitem scanner recovers from a
serialized block: the content of each entry except the last extends over
the blank-line separator, the last one over the final newline. -/
def rawPairs : List (List Char × List Char) → List (List Char × List Char)
  | [] => []
  | [p] => [(p.1, '\n' :: p.2 ++ ['\n'])]
  | p :: q :: t => (p.1, '\n' :: p.2 ++ ['\n', '\n']) :: rawPairs (q :: t)

/-- No occurrence of a literal anywhere in a list. -/
def noOccur (lit l : List Char) : Prop :=
  ∀ i, ¬ occursAt lit l i

/-- Failure modes of reorder_latex_bibliography, in the order the checks
occur: no citations found (line 167), missing delimiters (line 181),
empty entries dict (line 195).  Each corresponds to returning `False`
before the output file is written, after which `main` exits non-zero. -/
inductive ReorderError where
  | noCitations
  | missingDelimiters
  | emptyBibliography
  deriving DecidableEq

/-- The pure core of reorder_latex_bibliography (lines 145-222): scan
citations, extract the bibliography, rebuild it, splice it back. -/
def reorderLatexBibliography (content : List Char) :
    Except ReorderError (List Char) :=
  if (findAllCitations content).isEmpty then .error .noCitations
  else
    match extractBibliographyEntries content with
    | none => .error .missingDelimiters
    | some ex =>
      match createReorderedBibliography (getOrderedCitations (findAllCitations content))
          ex.entries ex.openingLine with
      | none => .error .emptyBibliography
      | some newBib =>
        .ok (content.take ex.bibStart ++ newBib ++ content.drop ex.bibEnd)

/-- The literal `.tex`. -/
def texLit : List Char := ".tex".data

/-- The literal `_reordered.tex`. -/
def reorderedLit : List Char := "_reordered.tex".data

/-- Fuelled model of Python `str.replace('.tex', '_reordered.tex')`:
left-to-right, non-overlapping, every occurrence. -/
def pyReplaceF : Nat → List Char → List Char
  | 0, l => l
  | _ + 1, [] => []
  | f + 1, c :: cs =>
    if (c :: cs).take 4 = texLit then reorderedLit ++ pyReplaceF f ((c :: cs).drop 4)
    else c :: pyReplaceF f cs

/-- Default output path `input_file.replace('.tex', '_reordered.tex')`
(bib_sorter.py line 205). -/
def defaultOutputPath (input : List Char) : List Char :=
  pyReplaceF input.length input

/-- A list is trimmed when it has no leading and no trailing whitespace. -/
def trimmed (l : List Char) : Prop :=
  l.dropWhile isPySpace = l ∧ l.reverse.dropWhile isPySpace = l.reverse

/-! ### Generic list helpers -/

theorem takeWhile_add_dropWhile_length {α : Type} (p : α → Bool) (l : List α) :
    (l.takeWhile p).length + (l.dropWhile p).length = l.length := by
  conv_rhs => rw [← List.takeWhile_append_dropWhile (p := p) (l := l)]
  exact (List.length_append _ _).symm

theorem dropWhile_dropWhile {α : Type} (p : α → Bool) (l : List α) :
    (l.dropWhile p).dropWhile p = l.dropWhile p := by
  induction l with
  | nil => rfl
  | cons c t ih =>
    by_cases h : p c
    · simp only [List.dropWhile_cons, h, if_true, ih]
    · simp [List.dropWhile_cons, h]

theorem takeWhile_dropWhile_nil {α : Type} (p : α → Bool) (l : List α) :
    (l.dropWhile p).takeWhile p = [] := by
  induction l with
  | nil => rfl
  | cons c t ih =>
    by_cases h : p c
    · simp only [List.dropWhile_cons, h, if_true, ih]
    · simp [List.dropWhile_cons, List.takeWhile_cons, h]

theorem dropWhile_cons_eq_self {α : Type} {p : α → Bool} {h : α} {t : List α}
    (hd : (h :: t).dropWhile p = h :: t) : p h = false := by
  by_cases hp : p h
  · exfalso
    rw [List.dropWhile_cons, if_pos hp] at hd
    have hle := (List.dropWhile_sublist (l := t) p).length_le
    have := congrArg List.length hd
    simp at this
    omega
  · exact Bool.of_not_eq_true hp

theorem rtrim_split (p : Char → Bool) (M : List Char) :
    M = (M.reverse.dropWhile p).reverse ++ (M.reverse.takeWhile p).reverse := by
  conv_lhs =>
    rw [← List.reverse_reverse M,
      ← List.takeWhile_append_dropWhile (p := p) (l := M.reverse)]
  rw [List.reverse_append]

theorem exists_dropWhile_eq_drop {α : Type} (p : α → Bool) (l : List α) :
    ∃ n, l.dropWhile p = l.drop n := by
  induction l with
  | nil => exact ⟨0, rfl⟩
  | cons c t ih =>
    by_cases h : p c
    · obtain ⟨n, hn⟩ := ih
      exact ⟨n + 1, by simp only [List.dropWhile_cons, h, if_true, List.drop_succ_cons, hn]⟩
    · exact ⟨0, by simp [List.dropWhile_cons, h]⟩

/-! ### pyStrip lemmas -/

theorem trimmed_pyStrip (l : List Char) : trimmed (pyStrip l) := by
  unfold pyStrip trimmed
  set M := l.dropWhile isPySpace with hM
  constructor
  · rcases hR : (M.reverse.dropWhile isPySpace).reverse with _ | ⟨h, t⟩
    · simp
    · have hsplit := rtrim_split isPySpace M
      rw [hR, List.cons_append] at hsplit
      have hMd : M.dropWhile isPySpace = M := dropWhile_dropWhile isPySpace l
      have hhead : isPySpace h = false := by
        have hMd2 : (h :: (t ++ (M.reverse.takeWhile isPySpace).reverse)).dropWhile isPySpace
            = h :: (t ++ (M.reverse.takeWhile isPySpace).reverse) := by
          rw [← hsplit]
          exact hMd
        exact dropWhile_cons_eq_self hMd2
      rw [List.dropWhile_cons, hhead]
      simp
  · rw [List.reverse_reverse]
    exact dropWhile_dropWhile isPySpace M.reverse

theorem pyStrip_eq_self_of_trimmed {l : List Char} (h : trimmed l) : pyStrip l = l := by
  unfold pyStrip
  rw [h.1, h.2, List.reverse_reverse]

theorem pyStrip_idem (l : List Char) : pyStrip (pyStrip l) = pyStrip l :=
  pyStrip_eq_self_of_trimmed (trimmed_pyStrip l)

/-! ### matchBlank and subBlank lemmas -/

theorem matchBlank_nil : matchBlank [] = none := rfl

theorem matchBlank_cons_eq (c : Char) (cs : List Char) :
    matchBlank (c :: cs) =
      if c = '\n' then
        if ((cs.takeWhile isPySpace).reverse.dropWhile (fun x => x != '\n')).isEmpty then none
        else some (((cs.takeWhile isPySpace).reverse.takeWhile (fun x => x != '\n')).reverse
          ++ cs.dropWhile isPySpace)
      else none := rfl

theorem matchBlank_none_iff {c : Char} {cs : List Char} :
    matchBlank (c :: cs) = none ↔ (c ≠ '\n' ∨ '\n' ∉ cs.takeWhile isPySpace) := by
  rw [matchBlank_cons_eq]
  by_cases hc : c = '\n'
  · subst hc
    simp only [if_pos rfl]
    by_cases hE : ((cs.takeWhile isPySpace).reverse.dropWhile (fun x => x != '\n')).isEmpty
    · rw [if_pos hE]
      have : '\n' ∉ cs.takeWhile isPySpace := by
        rw [List.isEmpty_iff, List.dropWhile_eq_nil_iff] at hE
        intro hmem
        have := hE '\n' (by simpa using hmem)
        simp at this
      simp [this]
    · rw [if_neg hE]
      have : '\n' ∈ cs.takeWhile isPySpace := by
        rw [List.isEmpty_iff, List.dropWhile_eq_nil_iff] at hE
        push_neg at hE
        obtain ⟨x, hx, hxn⟩ := hE
        have : x = '\n' := by simpa using hxn
        subst this
        simpa using hx
      simp [this]
  · simp [hc]

theorem matchBlank_some_eq {c : Char} {cs rem : List Char}
    (h : matchBlank (c :: cs) = some rem) :
    c = '\n' ∧
      rem = ((cs.takeWhile isPySpace).reverse.takeWhile (fun x => x != '\n')).reverse
        ++ cs.dropWhile isPySpace := by
  rw [matchBlank_cons_eq] at h
  by_cases hc : c = '\n'
  · refine ⟨hc, ?_⟩
    rw [if_pos hc] at h
    by_cases hE : ((cs.takeWhile isPySpace).reverse.dropWhile (fun x => x != '\n')).isEmpty
    · rw [if_pos hE] at h; cases h
    · rw [if_neg hE] at h
      exact (Option.some_inj.mp h).symm
  · rw [if_neg hc] at h; cases h

theorem matchBlank_some_len {c : Char} {cs rem : List Char}
    (h : matchBlank (c :: cs) = some rem) : rem.length ≤ cs.length := by
  obtain ⟨-, hrem⟩ := matchBlank_some_eq h
  subst hrem
  rw [List.length_append, List.length_reverse]
  have h1 : ((cs.takeWhile isPySpace).reverse.takeWhile (fun x => x != '\n')).length
      ≤ (cs.takeWhile isPySpace).length := by
    have := (List.takeWhile_sublist (l := (cs.takeWhile isPySpace).reverse)
      (fun x => x != '\n')).length_le
    simpa using this
  have h2 := takeWhile_add_dropWhile_length isPySpace cs
  omega

theorem subBlankF_congr : ∀ (f g : Nat) (l : List Char),
    l.length ≤ f → l.length ≤ g → subBlankF f l = subBlankF g l := by
  intro f
  induction f with
  | zero =>
    intro g l h1 _
    have : l = [] := List.length_eq_zero.mp (Nat.le_zero.mp h1)
    subst this
    cases g <;> rfl
  | succ f ih =>
    intro g l h1 h2
    cases l with
    | nil => cases g <;> rfl
    | cons c cs =>
      cases g with
      | zero => simp at h2
      | succ g =>
        cases hm : matchBlank (c :: cs) with
        | none =>
          simp only [subBlankF, hm]
          have hf : cs.length ≤ f := by simpa using Nat.lt_succ_iff.mp h1
          have hg : cs.length ≤ g := by simpa using Nat.lt_succ_iff.mp h2
          rw [ih g cs hf hg]
        | some rem =>
          simp only [subBlankF, hm]
          have hlen := matchBlank_some_len hm
          have hf : rem.length ≤ f := by
            have : cs.length ≤ f := by simpa using Nat.lt_succ_iff.mp h1
            omega
          have hg : rem.length ≤ g := by
            have : cs.length ≤ g := by simpa using Nat.lt_succ_iff.mp h2
            omega
          rw [ih g rem hf hg]

theorem subBlank_nil : subBlank [] = [] := rfl

theorem subBlank_cons_none {c : Char} {cs : List Char}
    (h : matchBlank (c :: cs) = none) : subBlank (c :: cs) = c :: subBlank cs := by
  unfold subBlank
  simp only [List.length_cons, subBlankF, h]

theorem subBlank_cons_some {c : Char} {cs rem : List Char}
    (h : matchBlank (c :: cs) = some rem) : subBlank (c :: cs) = '\n' :: subBlank rem := by
  unfold subBlank
  simp only [List.length_cons, subBlankF, h]
  rw [subBlankF_congr cs.length rem.length rem (matchBlank_some_len h) le_rfl]

theorem subBlank_of_not_hasPat : ∀ {l : List Char}, hasPat l = false → subBlank l = l := by
  intro l
  induction l with
  | nil => intro _; rfl
  | cons c cs ih =>
    intro h
    simp only [hasPat, Bool.or_eq_false_iff] at h
    have hm : matchBlank (c :: cs) = none := by
      cases hmm : matchBlank (c :: cs) with
      | none => rfl
      | some rem => rw [hmm] at h; simp at h
    rw [subBlank_cons_none hm, ih h.2]

theorem mem_takeWhile_append_mono {p : Char → Bool} {a : Char} :
    ∀ {xs : List Char} (ys : List Char), a ∈ xs.takeWhile p → a ∈ (xs ++ ys).takeWhile p := by
  intro xs
  induction xs with
  | nil => intro ys h; simp at h
  | cons x t ih =>
    intro ys h
    rw [List.takeWhile_cons] at h
    by_cases hx : p x
    · rw [if_pos hx] at h
      rw [List.cons_append, List.takeWhile_cons, if_pos hx]
      rcases List.mem_cons.mp h with h | h
      · exact h ▸ List.mem_cons_self _ _
      · exact List.mem_cons_of_mem _ (ih ys h)
    · rw [if_neg hx] at h
      simp at h

theorem matchBlank_isSome_append {c : Char} {cs ext : List Char}
    (h : (matchBlank (c :: cs)).isSome = true) :
    (matchBlank (c :: (cs ++ ext))).isSome = true := by
  cases hm : matchBlank (c :: cs) with
  | none => rw [hm] at h; simp at h
  | some rem =>
    obtain ⟨hc, -⟩ := matchBlank_some_eq hm
    subst hc
    have hw : '\n' ∈ cs.takeWhile isPySpace := by
      by_contra hcon
      rw [matchBlank_none_iff.mpr (Or.inr hcon)] at hm
      cases hm
    have hw2 : '\n' ∈ (cs ++ ext).takeWhile isPySpace := mem_takeWhile_append_mono ext hw
    cases hm2 : matchBlank ('\n' :: (cs ++ ext)) with
    | some _ => rfl
    | none =>
      rcases matchBlank_none_iff.mp hm2 with h' | h'
      · exact absurd rfl h'
      · exact absurd hw2 h'

theorem hasPat_drop : ∀ (l : List Char) (n : Nat), hasPat l = false → hasPat (l.drop n) = false := by
  intro l
  induction l with
  | nil => intro n _; simp [hasPat]
  | cons c cs ih =>
    intro n h
    cases n with
    | zero => exact h
    | succ n =>
      simp only [hasPat, Bool.or_eq_false_iff] at h
      rw [List.drop_succ_cons]
      exact ih n h.2

theorem hasPat_append_left : ∀ {A B : List Char}, hasPat (A ++ B) = false → hasPat A = false := by
  intro A
  induction A with
  | nil => intro B _; rfl
  | cons c t ih =>
    intro B h
    rw [List.cons_append] at h
    simp only [hasPat, Bool.or_eq_false_iff] at h ⊢
    constructor
    · by_contra hcon
      have : (matchBlank (c :: t)).isSome = true := by
        cases hmm : matchBlank (c :: t) with
        | none => rw [hmm] at hcon; simp at hcon
        | some _ => rfl
      have h2 : (matchBlank (c :: (t ++ B))).isSome = true :=
        matchBlank_isSome_append this
      rw [h.1] at h2
      cases h2
    · exact ih h.2

theorem hasPat_pyStrip {l : List Char} (h : hasPat l = false) :
    hasPat (pyStrip l) = false := by
  have hM : hasPat (l.dropWhile isPySpace) = false := by
    obtain ⟨n, hn⟩ := exists_dropWhile_eq_drop isPySpace l
    rw [hn]
    exact hasPat_drop l n h
  have hsplit := rtrim_split isPySpace (l.dropWhile isPySpace)
  rw [hsplit] at hM
  exact hasPat_append_left hM

theorem subBlank_props : ∀ (l : List Char),
    hasPat (subBlank l) = false ∧
      ('\n' ∉ l.takeWhile isPySpace → '\n' ∉ (subBlank l).takeWhile isPySpace) := by
  intro l
  generalize hn : l.length = n
  induction n using Nat.strong_induction_on generalizing l with
  | _ n ih =>
    cases l with
    | nil =>
      refine ⟨rfl, fun _ => ?_⟩
      simp [subBlank, subBlankF]
    | cons c cs =>
      cases hm : matchBlank (c :: cs) with
      | none =>
        rw [subBlank_cons_none hm]
        have hcs := ih cs.length (by rw [← hn]; simp) cs rfl
        constructor
        · simp only [hasPat, Bool.or_eq_false_iff]
          refine ⟨?_, hcs.1⟩
          by_cases hc : c = '\n'
          · subst hc
            have hw : '\n' ∉ cs.takeWhile isPySpace := by
              rcases matchBlank_none_iff.mp hm with h | h
              · exact absurd rfl h
              · exact h
            rw [matchBlank_none_iff.mpr (Or.inr (hcs.2 hw))]
            rfl
          · rw [matchBlank_none_iff.mpr (Or.inl hc)]
            rfl
        · intro hin
          by_cases hpc : isPySpace c
          · rw [List.takeWhile_cons, if_pos hpc] at hin
            rw [List.takeWhile_cons, if_pos hpc]
            have hcn : c ≠ '\n' := fun hceq => hin (hceq ▸ List.mem_cons_self _ _)
            have hw : '\n' ∉ cs.takeWhile isPySpace :=
              fun hx => hin (List.mem_cons_of_mem _ hx)
            intro hmem
            rcases List.mem_cons.mp hmem with h | h
            · exact hcn h.symm
            · exact (hcs.2 hw) h
          · rw [List.takeWhile_cons, if_neg hpc]
            simp
      | some rem =>
        obtain ⟨hc, hrem⟩ := matchBlank_some_eq hm
        subst hc
        rw [subBlank_cons_some hm]
        have hlen : rem.length < n := by
          rw [← hn]
          have := matchBlank_some_len hm
          simp only [List.length_cons]
          omega
        have hrem_tw : '\n' ∉ rem.takeWhile isPySpace := by
          rw [hrem]
          have hT : ∀ a ∈ ((cs.takeWhile isPySpace).reverse.takeWhile
              (fun x => x != '\n')).reverse, isPySpace a = true := by
            intro a ha
            rw [List.mem_reverse] at ha
            have ha2 : a ∈ (cs.takeWhile isPySpace).reverse :=
              List.takeWhile_subset _ ha
            rw [List.mem_reverse] at ha2
            exact List.mem_takeWhile_imp ha2
          rw [List.takeWhile_append_of_pos hT, takeWhile_dropWhile_nil, List.append_nil]
          intro hmem
          rw [List.mem_reverse] at hmem
          have := List.mem_takeWhile_imp hmem
          simp at this
        have hrec := ih rem.length hlen rem rfl
        constructor
        · simp only [hasPat, Bool.or_eq_false_iff]
          refine ⟨?_, hrec.1⟩
          rw [matchBlank_none_iff.mpr (Or.inr (hrec.2 hrem_tw))]
          rfl
        · intro hin
          exfalso
          apply hin
          rw [List.takeWhile_cons, if_pos (by rfl : isPySpace '\n' = true)]
          exact List.mem_cons_self _ _

theorem hasPat_subBlank (l : List Char) : hasPat (subBlank l) = false :=
  (subBlank_props l).1

/-- Claim C3, counterexample: the specification says a single blank line
inside an entry body is preserved byte-for-byte (only runs of two or more
blank lines collapse, and then to a single blank line).  The code's
substitution removes the single blank line of the body `a\n\nb` entirely,
producing `a\nb`. -/
theorem c3_counterexample :
    normalizeBody "a\n\nb".data = "a\nb".data ∧ "a\nb".data ≠ "a\n\nb".data := by
  constructor
  · rfl
  · decide

/-- Claim C3, amended: body normalization trims the body and collapses
every run of one or more blank (whitespace-only) lines to a single line
break, so that the result contains no occurrence of the blank-line
pattern at all; a body whose trimmed form contains no blank-line pattern
is preserved byte-for-byte apart from the trimming. -/
theorem c3_body_normalization (l : List Char) :
    hasPat (normalizeBody l) = false ∧
      (hasPat (pyStrip l) = false → normalizeBody l = pyStrip l) := by
  constructor
  · exact hasPat_pyStrip (hasPat_subBlank (pyStrip l))
  · intro h
    unfold normalizeBody
    rw [subBlank_of_not_hasPat h, pyStrip_idem]

/-- Witness for the amended C3 theorem at a concrete body. -/
theorem c3_body_normalization_witness :
    hasPat (pyStrip "a x\nb".data) = false ∧
      normalizeBody "a x\nb".data = pyStrip "a x\nb".data :=
  ⟨by decide, (c3_body_normalization "a x\nb".data).2 (by decide)⟩

/-! ### occursAt and findLit lemmas -/

theorem occursAt_zero_iff {lit l : List Char} :
    occursAt lit l 0 ↔ l.take lit.length = lit := by
  simp [occursAt]

theorem occursAt_succ_cons {lit : List Char} {c : Char} {cs : List Char} {i : Nat} :
    occursAt lit (c :: cs) (i + 1) ↔ occursAt lit cs i := Iff.rfl

theorem occursAt_length {lit l : List Char} {i : Nat} (hlit : lit ≠ [])
    (h : occursAt lit l i) : i + lit.length ≤ l.length := by
  have hlen := congrArg List.length h
  simp only [List.length_take, List.length_drop] at hlen
  have hmin := Nat.min_le_right lit.length (l.length - i)
  rw [hlen] at hmin
  have hne : lit.length ≠ 0 := fun hh => hlit (List.length_eq_zero.mp hh)
  omega

theorem occursAt_append_left_iff {lit A B : List Char} {i : Nat}
    (h : i + lit.length ≤ A.length) : occursAt lit (A ++ B) i ↔ occursAt lit A i := by
  unfold occursAt
  rw [List.drop_append_of_le_length (by omega),
    List.take_append_of_le_length (by simp only [List.length_drop]; omega)]

theorem occursAt_append_right {lit A B : List Char} {i : Nat} (h : occursAt lit B i) :
    occursAt lit (A ++ B) (A.length + i) := by
  unfold occursAt at h ⊢
  rw [List.drop_append]
  exact h

theorem findLit_nil_of_ne {lit : List Char} (h : lit ≠ []) : findLit lit [] = none := by
  unfold findLit
  rw [if_neg]
  simp [List.isEmpty_iff, h]

theorem findLit_cons_eq (lit : List Char) (c : Char) (cs : List Char) :
    findLit lit (c :: cs) =
      if (c :: cs).take lit.length = lit then some 0
      else (findLit lit cs).map (· + 1) := rfl

theorem findLit_none_iff {lit : List Char} (hlit : lit ≠ []) :
    ∀ {l : List Char}, (findLit lit l = none ↔ ∀ i, ¬ occursAt lit l i) := by
  intro l
  induction l with
  | nil =>
    rw [findLit_nil_of_ne hlit]
    constructor
    · intro _ i h
      unfold occursAt at h
      simp only [List.drop_nil, List.take_nil] at h
      exact hlit h.symm
    · intro _; rfl
  | cons c cs ih =>
    rw [findLit_cons_eq]
    by_cases ht : (c :: cs).take lit.length = lit
    · rw [if_pos ht]
      constructor
      · intro h; cases h
      · intro h
        exact absurd (occursAt_zero_iff.mpr ht) (h 0)
    · rw [if_neg ht, Option.map_eq_none', ih]
      constructor
      · intro h i
        cases i with
        | zero => exact fun hc => ht (occursAt_zero_iff.mp hc)
        | succ i => exact fun hc => h i (occursAt_succ_cons.mp hc)
      · intro h i
        exact fun hc => h (i + 1) (occursAt_succ_cons.mpr hc)

theorem findLit_some_occursAt {lit : List Char} :
    ∀ {l : List Char} {i : Nat}, findLit lit l = some i →
      occursAt lit l i ∧ ∀ j, j < i → ¬ occursAt lit l j := by
  intro l
  induction l with
  | nil =>
    intro i h
    unfold findLit at h
    by_cases he : lit.isEmpty
    · rw [if_pos he] at h
      injection h with h
      subst h
      have hl : lit = [] := List.isEmpty_iff.mp he
      subst hl
      exact ⟨rfl, fun j hj => absurd hj (Nat.not_lt_zero j)⟩
    · rw [if_neg he] at h; cases h
  | cons c cs ih =>
    intro i h
    rw [findLit_cons_eq] at h
    by_cases ht : (c :: cs).take lit.length = lit
    · rw [if_pos ht] at h
      injection h with h
      subst h
      exact ⟨occursAt_zero_iff.mpr ht, fun j hj => absurd hj (Nat.not_lt_zero j)⟩
    · rw [if_neg ht] at h
      obtain ⟨i', hi', rfl⟩ := Option.map_eq_some'.mp h
      obtain ⟨h1, h2⟩ := ih hi'
      refine ⟨occursAt_succ_cons.mpr h1, ?_⟩
      intro j hj
      cases j with
      | zero => exact fun hc => ht (occursAt_zero_iff.mp hc)
      | succ j => exact fun hc => h2 j (Nat.succ_lt_succ_iff.mp hj) (occursAt_succ_cons.mp hc)

theorem findLit_le_of_occursAt {lit : List Char} :
    ∀ {l : List Char} {i : Nat}, occursAt lit l i →
      ∃ j, findLit lit l = some j ∧ j ≤ i := by
  intro l
  induction l with
  | nil =>
    intro i h
    have hl : lit = [] := by
      unfold occursAt at h
      simp only [List.drop_nil, List.take_nil] at h
      exact h.symm
    refine ⟨0, ?_, Nat.zero_le i⟩
    unfold findLit
    rw [if_pos (by simp [hl])]
  | cons c cs ih =>
    intro i h
    rw [findLit_cons_eq]
    by_cases ht : (c :: cs).take lit.length = lit
    · exact ⟨0, by rw [if_pos ht], Nat.zero_le i⟩
    · cases i with
      | zero => exact absurd (occursAt_zero_iff.mp h) ht
      | succ i =>
        obtain ⟨j, hj, hle⟩ := ih (occursAt_succ_cons.mp h)
        exact ⟨j + 1, by rw [if_neg ht, hj]; rfl, Nat.succ_le_succ hle⟩

/-! ### Output-path lemmas (claim C9) -/

theorem pyReplaceF_congr : ∀ (f g : Nat) (l : List Char),
    l.length ≤ f → l.length ≤ g → pyReplaceF f l = pyReplaceF g l := by
  intro f
  induction f with
  | zero =>
    intro g l h1 _
    have : l = [] := List.length_eq_zero.mp (Nat.le_zero.mp h1)
    subst this
    cases g <;> rfl
  | succ f ih =>
    intro g l h1 h2
    cases l with
    | nil => cases g <;> rfl
    | cons c cs =>
      cases g with
      | zero => simp at h2
      | succ g =>
        simp only [pyReplaceF]
        by_cases ht : (c :: cs).take 4 = texLit
        · rw [if_pos ht, if_pos ht]
          have hlen : ((c :: cs).drop 4).length ≤ f := by
            simp only [List.length_drop, List.length_cons]
            have : cs.length ≤ f := by simpa using Nat.lt_succ_iff.mp h1
            omega
          have hlen2 : ((c :: cs).drop 4).length ≤ g := by
            simp only [List.length_drop, List.length_cons]
            have : cs.length ≤ g := by simpa using Nat.lt_succ_iff.mp h2
            omega
          rw [ih g ((c :: cs).drop 4) hlen hlen2]
        · rw [if_neg ht, if_neg ht]
          have hf : cs.length ≤ f := by simpa using Nat.lt_succ_iff.mp h1
          have hg : cs.length ≤ g := by simpa using Nat.lt_succ_iff.mp h2
          rw [ih g cs hf hg]

theorem pyReplaceF_no_occur : ∀ (f : Nat) (l : List Char), l.length ≤ f →
    findLit texLit l = none → pyReplaceF f l = l := by
  intro f
  induction f with
  | zero =>
    intro l h1 _
    have : l = [] := List.length_eq_zero.mp (Nat.le_zero.mp h1)
    subst this; rfl
  | succ f ih =>
    intro l h1 h2
    cases l with
    | nil => rfl
    | cons c cs =>
      rw [findLit_cons_eq] at h2
      by_cases ht : (c :: cs).take texLit.length = texLit
      · rw [if_pos ht] at h2; cases h2
      · rw [if_neg ht, Option.map_eq_none'] at h2
        simp only [pyReplaceF]
        rw [if_neg (by exact ht), ih cs (by simpa using Nat.lt_succ_iff.mp h1) h2]

theorem texLit_no_span : ∀ (x : List Char), x ≠ [] → x.length < 4 →
    (x ++ texLit).take 4 ≠ texLit := by
  intro x hne hlen h
  rcases x with _ | ⟨a, x⟩
  · exact hne rfl
  rcases x with _ | ⟨b, x⟩
  · injection h with h1 h
    injection h with h2 h
    exact absurd h2 (by decide)
  rcases x with _ | ⟨c0, x⟩
  · injection h with h1 h
    injection h with h2 h
    injection h with h3 h
    exact absurd h3 (by decide)
  rcases x with _ | ⟨d, x⟩
  · injection h with h1 h
    injection h with h2 h
    injection h with h3 h
    injection h with h4 h
    exact absurd h4 (by decide)
  · simp only [List.length_cons] at hlen
    omega

theorem pyReplaceF_stem : ∀ (stem : List Char) (f : Nat), stem.length + 4 ≤ f →
    findLit texLit stem = none → pyReplaceF f (stem ++ texLit) = stem ++ reorderedLit := by
  intro stem
  induction stem with
  | nil =>
    intro f h1 _
    cases f with
    | zero => omega
    | succ f =>
      simp only [List.nil_append]
      rw [pyReplaceF_congr (f + 1) texLit.length texLit
        (by have : texLit.length = 4 := rfl; omega) le_rfl]
      decide
  | cons c stem' ih =>
    intro f h1 h2
    cases f with
    | zero => omega
    | succ f =>
      rw [findLit_cons_eq] at h2
      by_cases ht : (c :: stem').take texLit.length = texLit
      · rw [if_pos ht] at h2; cases h2
      rw [if_neg ht, Option.map_eq_none'] at h2
      have hnotake : ¬ ((c :: stem') ++ texLit).take 4 = texLit := by
        by_cases hlen : 4 ≤ (c :: stem').length
        · rw [List.take_append_of_le_length hlen]
          exact fun hc => ht hc
        · exact texLit_no_span (c :: stem') (by simp) (by omega)
      simp only [List.cons_append, pyReplaceF]
      rw [if_neg (by simpa using hnotake)]
      rw [show stem'.append texLit = stem' ++ texLit from rfl]
      rw [ih f (by simp only [List.length_cons] at h1; omega) h2]

/-- Claim C9, counterexample: for the input path `a.tex.tex`, substituting
only the trailing extension suffix would give `a.tex_reordered.tex`, but the
code replaces every occurrence of `.tex` and produces
`a_reordered.tex_reordered.tex`. -/
theorem c9_counterexample :
    defaultOutputPath "a.tex.tex".data = "a_reordered.tex_reordered.tex".data ∧
      "a_reordered.tex_reordered.tex".data ≠ "a.tex".data ++ "_reordered.tex".data := by
  exact ⟨rfl, by decide⟩

/-- Claim C9, amended: the default output path is the input path with every
occurrence of `.tex` (not only a trailing one) replaced by
`_reordered.tex`; in particular an input that ends in `.tex` and contains
no other occurrence maps to its stem followed by `_reordered.tex`, and an
input containing no occurrence of `.tex` at all is returned unchanged. -/
theorem c9_output_path :
    (∀ l : List Char, findLit texLit l = none → defaultOutputPath l = l) ∧
      (∀ stem : List Char, findLit texLit stem = none →
        defaultOutputPath (stem ++ texLit) = stem ++ reorderedLit) := by
  constructor
  · intro l h
    exact pyReplaceF_no_occur l.length l le_rfl h
  · intro stem h
    unfold defaultOutputPath
    exact pyReplaceF_stem stem (stem ++ texLit).length
      (by simp only [List.length_append]; have : texLit.length = 4 := rfl; omega) h

/-- Witness for the amended C9 theorem at a concrete path. -/
theorem c9_output_path_witness :
    findLit texLit "paper".data = none ∧
      defaultOutputPath ("paper".data ++ texLit) = "paper".data ++ reorderedLit :=
  ⟨by decide, c9_output_path.2 "paper".data (by decide)⟩


/-! ### Reconciler lemmas (claims C2, C7, C1) -/

theorem assocFind_cons {β : Type} (a : List Char) (v : β) (t : List (List Char × β))
    (k : List Char) :
    assocFind ((a, v) :: t) k = if a = k then some v else assocFind t k := rfl

theorem assocFind_eq_none_iff {β : Type} {d : List (List Char × β)} {k : List Char} :
    assocFind d k = none ↔ k ∉ d.map Prod.fst := by
  induction d with
  | nil => exact ⟨fun _ h => (List.not_mem_nil k) h, fun _ => rfl⟩
  | cons p t ih =>
    rcases p with ⟨a, v⟩
    rw [assocFind_cons, List.map_cons]
    by_cases h : a = k
    · subst h
      rw [if_pos rfl]
      constructor
      · intro hh; cases hh
      · intro hh; exact absurd (List.mem_cons_self _ _) hh
    · rw [if_neg h, ih]
      constructor
      · intro hh hmem
        rcases List.mem_cons.mp hmem with he | hm
        · exact h he.symm
        · exact hh hm
      · intro hh hm
        exact hh (List.mem_cons_of_mem _ hm)

theorem assocFind_mem {β : Type} {d : List (List Char × β)} {k : List Char} {v : β}
    (hnd : (d.map Prod.fst).Nodup) (h : (k, v) ∈ d) : assocFind d k = some v := by
  induction d with
  | nil => cases h
  | cons p t ih =>
    rcases p with ⟨a, w⟩
    rw [assocFind_cons]
    rcases List.mem_cons.mp h with h | h
    · injection h with h1 h2
      subst h1; subst h2
      rw [if_pos rfl]
    · rw [List.map_cons] at hnd
      obtain ⟨hna, hndt⟩ := List.nodup_cons.mp hnd
      have hk : k ∈ t.map Prod.fst := List.mem_map_of_mem Prod.fst h
      rw [if_neg (fun he => hna (by rw [he]; exact hk))]
      exact ih hndt h

theorem matchPass_eq (order : List (List Char)) (entries : List (List Char × List Char)) :
    matchPass order entries =
      (order.filterMap (fun k => (assocFind entries k).map (fun v => fmtEntry k v)),
       order.filter (fun k => (assocFind entries k).isSome)) := by
  have aux : ∀ (ord : List (List Char)) (acc : List (List Char) × List (List Char)),
      ord.foldl
          (fun acc k =>
            match assocFind entries k with
            | some v => (acc.1 ++ [fmtEntry k v], acc.2 ++ [k])
            | none => acc) acc
        = (acc.1 ++ ord.filterMap (fun k => (assocFind entries k).map (fun v => fmtEntry k v)),
           acc.2 ++ ord.filter (fun k => (assocFind entries k).isSome)) := by
    intro ord
    induction ord with
    | nil => intro acc; simp
    | cons k t ih =>
      intro acc
      rw [List.foldl_cons]
      cases hk : assocFind entries k with
      | none =>
        simp only [hk]
        rw [ih acc]
        simp [List.filterMap_cons, List.filter_cons, hk]
      | some v =>
        simp only [hk]
        rw [ih (acc.1 ++ [fmtEntry k v], acc.2 ++ [k])]
        simp [List.filterMap_cons, List.filter_cons, hk]
  unfold matchPass
  exact aux order ([], [])

theorem createReordered_some {order : List (List Char)}
    {entries : List (List Char × List Char)} {opening : List Char} (hne : entries ≠ []) :
    createReorderedBibliography order entries opening =
      some (serializeBib opening ((matchPass order entries).1 ++
        ((entries.map Prod.fst).filter (fun k => !(decide (k ∈ usedKeys order entries)))).map
          (fun k => fmtEntry k ((assocFind entries k).getD [])))) := by
  unfold createReorderedBibliography
  rw [if_neg (by simp [List.isEmpty_iff, hne])]
  rfl

theorem map_fmt_keys_eq : ∀ {entries : List (List Char × List Char)},
    (entries.map Prod.fst).Nodup →
    (entries.map Prod.fst).map (fun k => fmtEntry k ((assocFind entries k).getD []))
      = entries.map (fun p => fmtEntry p.1 p.2) := by
  intro entries
  induction entries with
  | nil => intro _; rfl
  | cons p t ih =>
    intro hnd
    rcases p with ⟨a, v⟩
    rw [List.map_cons] at hnd
    have hnd0 : a ∉ t.map Prod.fst ∧ (t.map Prod.fst).Nodup := List.nodup_cons.mp hnd
    have htail : ∀ k ∈ t.map Prod.fst,
        fmtEntry k ((assocFind ((a, v) :: t) k).getD [])
          = fmtEntry k ((assocFind t k).getD []) := by
      intro k hk
      rw [assocFind_cons, if_neg (fun he => hnd0.1 (by rw [he]; exact hk))]
    rw [List.map_cons, List.map_cons, List.map_cons]
    congr 1
    · rw [assocFind_cons, if_pos rfl]
      rfl
    · rw [List.map_congr_left htail]
      exact ih hnd0.2

theorem filter_keys_fmt_eq : ∀ {entries : List (List Char × List Char)},
    (entries.map Prod.fst).Nodup → ∀ (q : List Char → Bool),
    ((entries.map Prod.fst).filter q).map (fun k => fmtEntry k ((assocFind entries k).getD []))
      = (entries.filter (fun p => q p.1)).map (fun p => fmtEntry p.1 p.2) := by
  intro entries
  induction entries with
  | nil => intro _ q; rfl
  | cons p t ih =>
    intro hnd q
    rcases p with ⟨a, v⟩
    rw [List.map_cons] at hnd
    have hnd0 : a ∉ t.map Prod.fst ∧ (t.map Prod.fst).Nodup := List.nodup_cons.mp hnd
    have htail : ∀ k ∈ (t.map Prod.fst).filter q,
        fmtEntry k ((assocFind ((a, v) :: t) k).getD [])
          = fmtEntry k ((assocFind t k).getD []) := by
      intro k hk
      have hk2 : k ∈ t.map Prod.fst := List.mem_of_mem_filter hk
      rw [assocFind_cons, if_neg (fun he => hnd0.1 (by rw [he]; exact hk2))]
    by_cases hq : q a
    · have lhs : ((((a, v) :: t).map Prod.fst).filter q) = a :: (t.map Prod.fst).filter q := by
        simp [List.filter_cons, hq]
      have rhs : (((a, v) :: t).filter (fun p => q p.1)) = (a, v) :: t.filter (fun p => q p.1) := by
        simp [List.filter_cons, hq]
      rw [lhs, rhs, List.map_cons, List.map_cons]
      congr 1
      · rw [assocFind_cons, if_pos rfl]
        rfl
      · rw [List.map_congr_left htail]
        exact ih hnd0.2 q
    · have lhs : ((((a, v) :: t).map Prod.fst).filter q) = (t.map Prod.fst).filter q := by
        simp [List.filter_cons, hq]
      have rhs : (((a, v) :: t).filter (fun p => q p.1)) = t.filter (fun p => q p.1) := by
        simp [List.filter_cons, hq]
      rw [lhs, rhs, List.map_congr_left htail]
      exact ih hnd0.2 q

/-- Claim C2, counterexample: the reconciler does fail on the empty entry
mapping (`if not bib_entries: return None`, bib_sorter.py line 109), and a
document whose bibliography block has delimiters but zero bibitem entries
makes the whole operation fail instead of producing an output whose block
has a preamble, an end marker and zero entries. -/
theorem c2_counterexample :
    createReorderedBibliography ["a".data] [] beginLit = none ∧
      reorderLatexBibliography
          "\\cite\x7ba\x7d\n\\begin\x7bthebibliography\x7d\x7b9\x7d\n\\end\x7bthebibliography\x7d".data
        = Except.error ReorderError.emptyBibliography :=
  ⟨rfl, rfl⟩

/-- Claim C2, amended: the reconciler succeeds exactly on nonempty parsed
entry mappings.  For every nonempty mapping it produces a serialized
block, and when no cited key matches, the block consists entirely of the
orphaned entries in their original mapping order.  For the empty mapping
(delimiters present, zero bibitem entries) it returns None and the whole
operation fails without writing output. -/
theorem c2_reconciler_totality (order : List (List Char))
    (entries : List (List Char × List Char)) (opening : List Char)
    (hne : entries ≠ []) (hnd : (entries.map Prod.fst).Nodup) :
    (∃ b, createReorderedBibliography order entries opening = some b) ∧
      ((∀ k ∈ order, assocFind entries k = none) →
        createReorderedBibliography order entries opening
          = some (serializeBib opening (entries.map fun p => fmtEntry p.1 p.2))) := by
  constructor
  · exact ⟨_, createReordered_some hne⟩
  · intro hnone
    rw [createReordered_some hne]
    have hm := matchPass_eq order entries
    have hm1 : (matchPass order entries).1 = [] := by
      rw [hm]
      apply List.filterMap_eq_nil_iff.mpr
      intro k hk
      rw [hnone k hk]
      rfl
    have hm2 : usedKeys order entries = [] := by
      unfold usedKeys
      rw [hm]
      apply List.filter_eq_nil_iff.mpr
      intro k hk
      rw [hnone k hk]
      simp
    rw [hm1, hm2]
    simp only [List.nil_append]
    have hfil : (entries.map Prod.fst).filter
        (fun k => !(decide (k ∈ ([] : List (List Char))))) = entries.map Prod.fst :=
      List.filter_eq_self.mpr (fun a _ => by simp)
    rw [hfil, map_fmt_keys_eq hnd]

/-- Witness for the amended C2 theorem at a concrete mapping. -/
theorem c2_reconciler_totality_witness :
    ([("a".data, "A".data)] : List (List Char × List Char)) ≠ [] ∧
      createReorderedBibliography ["x".data] [("a".data, "A".data)] beginLit
        = some (serializeBib beginLit
            ([("a".data, "A".data)].map fun p => fmtEntry p.1 p.2)) :=
  ⟨by decide,
    (c2_reconciler_totality ["x".data] [("a".data, "A".data)] beginLit
      (by decide) (by decide)).2 (by decide)⟩

/-- Claim C7, counterexample: the claim's universal quantifier covers the
empty parsed mapping, where every cited key is a cited key with no
corresponding bibliography entry; there the reconciler does not skip the
key and still produce the output: it returns None at line 109 and the
whole operation fails with no output written. -/
theorem c7_counterexample :
    assocFind ([] : List (List Char × List Char)) "x".data = none ∧
      createReorderedBibliography ["x".data] [] beginLit = none ∧
      reorderLatexBibliography
          "\\cite\x7bx\x7d\n\\begin\x7bthebibliography\x7d\x7b9\x7d\n\\end\x7bthebibliography\x7d".data
        = Except.error ReorderError.emptyBibliography :=
  ⟨rfl, rfl, rfl⟩

/-- Claim C7, amended: on a nonempty parsed mapping (with the distinct
keys the parser guarantees) cited keys with no entry are skipped without
failure (the matched list is the filterMap of the citation order through
the entry mapping), every cited key that is present is appended in
citation order and marked used, and a cited key with no entry does not
occur among the keys of the reconciled block (nothing is fabricated);
when the mapping is empty the operation instead fails and writes no
output. -/
theorem c7_missing_cited_keys (order : List (List Char))
    (entries : List (List Char × List Char)) (opening : List Char)
    (hne : entries ≠ []) (hnd : (entries.map Prod.fst).Nodup) :
    createReorderedBibliography order entries opening
        = some (serializeBib opening
            ((order.filterMap fun k => (assocFind entries k).map (fun v => fmtEntry k v)) ++
              (entries.filter (fun p => !(decide (p.1 ∈ usedKeys order entries)))).map
                (fun p => fmtEntry p.1 p.2))) ∧
      usedKeys order entries = order.filter (fun k => (assocFind entries k).isSome) ∧
      (∀ k ∈ order, assocFind entries k = none → k ∉ reconciledKeys order entries) := by
  refine ⟨?_, ?_, ?_⟩
  · rw [createReordered_some hne, filter_keys_fmt_eq hnd]
    rw [show (matchPass order entries).1
      = order.filterMap fun k => (assocFind entries k).map (fun v => fmtEntry k v) by
        rw [matchPass_eq]]
  · unfold usedKeys
    rw [matchPass_eq]
  · intro k hk hnonefind
    unfold reconciledKeys
    intro hmem
    rcases List.mem_append.mp hmem with hmem | hmem
    · unfold usedKeys at hmem
      rw [matchPass_eq] at hmem
      have := List.of_mem_filter hmem
      rw [hnonefind] at this
      cases this
    · have := List.mem_of_mem_filter hmem
      exact (assocFind_eq_none_iff.mp hnonefind) this

/-- Witness for the amended C7 theorem at a concrete order and mapping. -/
theorem c7_missing_cited_keys_witness :
    createReorderedBibliography ["q".data, "a".data] [("a".data, "A".data)] beginLit
        = some (serializeBib beginLit
            ((["q".data, "a".data].filterMap fun k =>
                (assocFind [("a".data, "A".data)] k).map (fun v => fmtEntry k v)) ++
              ([("a".data, "A".data)].filter (fun p =>
                !(decide (p.1 ∈ usedKeys ["q".data, "a".data] [("a".data, "A".data)])))).map
                (fun p => fmtEntry p.1 p.2))) ∧
      "q".data ∉ reconciledKeys ["q".data, "a".data] [("a".data, "A".data)] := by
  have h := c7_missing_cited_keys ["q".data, "a".data] [("a".data, "A".data)] beginLit
    (by decide) (by decide)
  exact ⟨h.1, h.2.2 "q".data (by decide) (by decide)⟩

/-! ### buildEntries lemmas and claim C1 -/

theorem insertEntry_keys_of_mem {d : List (List Char × List Char)} {k : List Char}
    (v : List Char) (h : k ∈ d.map Prod.fst) :
    (insertEntry d k v).map Prod.fst = d.map Prod.fst := by
  unfold insertEntry
  obtain ⟨p, hp, hpk⟩ := List.mem_map.mp h
  rw [if_pos (List.any_eq_true.mpr ⟨p, hp, by simp [hpk]⟩)]
  rw [List.map_map]
  apply List.map_congr_left
  intro q _
  by_cases hqk : q.1 = k
  · simp [hqk]
  · simp [hqk]

theorem insertEntry_of_not_mem {d : List (List Char × List Char)} {k : List Char}
    (v : List Char) (h : k ∉ d.map Prod.fst) :
    insertEntry d k v = d ++ [(k, v)] := by
  unfold insertEntry
  rw [if_neg]
  intro hany
  obtain ⟨p, hp, hpk⟩ := List.any_eq_true.mp hany
  exact h (List.mem_map.mpr ⟨p, hp, of_decide_eq_true hpk⟩)

theorem buildEntries_keys_nodup (ms : List (List Char × List Char)) :
    ((buildEntries ms).map Prod.fst).Nodup := by
  have aux : ∀ (ms : List (List Char × List Char)) (acc : List (List Char × List Char)),
      (acc.map Prod.fst).Nodup →
      ((ms.foldl (fun d m => insertEntry d (pyStrip m.1) (normalizeBody m.2)) acc).map
        Prod.fst).Nodup := by
    intro ms
    induction ms with
    | nil => intro acc h; exact h
    | cons m t ih =>
      intro acc h
      rw [List.foldl_cons]
      apply ih
      by_cases hmem : pyStrip m.1 ∈ acc.map Prod.fst
      · rw [insertEntry_keys_of_mem _ hmem]
        exact h
      · rw [insertEntry_of_not_mem _ hmem, List.map_append]
        simp only [List.map_cons, List.map_nil]
        rw [List.nodup_append]
        exact ⟨h, List.nodup_singleton _, by simpa using hmem⟩
  exact aux ms [] (by simp)

theorem buildEntries_of_nodup : ∀ {ms : List (List Char × List Char)},
    (ms.map (fun m => pyStrip m.1)).Nodup →
    buildEntries ms = ms.map (fun m => (pyStrip m.1, normalizeBody m.2)) := by
  have aux : ∀ (ms : List (List Char × List Char)) (acc : List (List Char × List Char)),
      (∀ m ∈ ms, pyStrip m.1 ∉ acc.map Prod.fst) →
      (ms.map (fun m => pyStrip m.1)).Nodup →
      ms.foldl (fun d m => insertEntry d (pyStrip m.1) (normalizeBody m.2)) acc
        = acc ++ ms.map (fun m => (pyStrip m.1, normalizeBody m.2)) := by
    intro ms
    induction ms with
    | nil => intro acc _ _; simp
    | cons m t ih =>
      intro acc hdis hnd
      rw [List.map_cons] at hnd
      obtain ⟨hm1, hm2⟩ := List.nodup_cons.mp hnd
      rw [List.foldl_cons, insertEntry_of_not_mem _ (hdis m (List.mem_cons_self _ _))]
      rw [ih (acc ++ [(pyStrip m.1, normalizeBody m.2)]) ?hd hm2]
      · rw [List.map_cons, List.append_assoc]
        rfl
      case hd =>
        intro m' hm'
        rw [List.map_append]
        intro hmem
        rcases List.mem_append.mp hmem with hmem | hmem
        · exact hdis m' (List.mem_cons_of_mem _ hm') hmem
        · simp only [List.map_cons, List.map_nil, List.mem_singleton] at hmem
          exact hm1 (hmem ▸ List.mem_map_of_mem (fun m => pyStrip m.1) hm')
  intro ms h
  exact aux ms [] (by simp) h

theorem assocFind_isSome_iff {β : Type} {d : List (List Char × β)} {k : List Char} :
    (assocFind d k).isSome = true ↔ k ∈ d.map Prod.fst := by
  rw [Option.isSome_iff_ne_none]
  constructor
  · intro h
    by_contra hmem
    exact h (assocFind_eq_none_iff.mpr hmem)
  · intro h hnone
    exact (assocFind_eq_none_iff.mp hnone) h

theorem usedKeys_eq (order : List (List Char)) (entries : List (List Char × List Char)) :
    usedKeys order entries = order.filter (fun k => (assocFind entries k).isSome) := by
  unfold usedKeys
  rw [matchPass_eq]

theorem filterMap_eq_map_filter (entries : List (List Char × List Char))
    (g : List Char → List Char → List Char) :
    ∀ (order : List (List Char)),
    order.filterMap (fun k => (assocFind entries k).map (fun v => g k v))
      = (order.filter (fun k => (assocFind entries k).isSome)).map
          (fun k => g k ((assocFind entries k).getD [])) := by
  intro order
  induction order with
  | nil => rfl
  | cons k t ih =>
    cases hk : assocFind entries k with
    | none => simp [List.filterMap_cons, List.filter_cons, hk, ih]
    | some v => simp [List.filterMap_cons, List.filter_cons, hk, ih]

theorem reconciledKeys_perm {order : List (List Char)}
    {entries : List (List Char × List Char)}
    (hnd : (entries.map Prod.fst).Nodup) (hord : order.Nodup) :
    List.Perm (reconciledKeys order entries) (entries.map Prod.fst) := by
  unfold reconciledKeys
  rw [usedKeys_eq]
  have husednd : (order.filter (fun k => (assocFind entries k).isSome)).Nodup :=
    hord.filter _
  have hq : List.Perm (order.filter (fun k => (assocFind entries k).isSome))
      ((entries.map Prod.fst).filter
        (fun k => decide (k ∈ order.filter (fun k => (assocFind entries k).isSome)))) := by
    apply (List.perm_ext_iff_of_nodup husednd (hnd.filter _)).mpr
    intro a
    constructor
    · intro ha
      have ha2 := List.of_mem_filter ha
      exact List.mem_filter.mpr ⟨assocFind_isSome_iff.mp ha2, by simpa using ha⟩
    · intro ha
      have := (List.mem_filter.mp ha).2
      simpa using this
  exact List.Perm.trans (List.Perm.append_right _ hq) (List.filter_append_perm _ _)

/-- Claim C1, counterexample: a bibliography block containing two
`\bibitem` entries with the same key `a` has input key multiset {a, a},
but the parsed mapping collapses the duplicate (last write wins) and the
reconciled block contains the key only once. -/
theorem c1_counterexample :
    Multiset.ofList (reconciledKeys ["a".data]
        (buildEntries (bibitemScan
          "\\begin\x7bthebibliography\x7d\x7b9\x7d\n\\bibitem\x7ba\x7d\nx\n\\bibitem\x7ba\x7d\ny\n\\end\x7bthebibliography\x7d".data)))
      ≠ Multiset.ofList ((bibitemScan
          "\\begin\x7bthebibliography\x7d\x7b9\x7d\n\\bibitem\x7ba\x7d\nx\n\\bibitem\x7ba\x7d\ny\n\\end\x7bthebibliography\x7d".data).map
          (fun m => pyStrip m.1)) := by
  decide

/-- Claim C1, amended: provided the block's (stripped) bibitem keys are
pairwise distinct and the resolved citation order is duplicate-free (both
hold for the real pipeline; duplicate bibitem keys collapse last-write-wins
instead), the multiset of keys of the reconciled block equals the multiset
of keys of the input block, and the reconciled block is exactly the
serialization of its keys with their entry bodies. -/
theorem c1_set_closure (bs opening : List Char) (order : List (List Char))
    (hnd : ((bibitemScan bs).map (fun m => pyStrip m.1)).Nodup)
    (hord : order.Nodup) :
    Multiset.ofList (reconciledKeys order (buildEntries (bibitemScan bs)))
        = Multiset.ofList ((bibitemScan bs).map (fun m => pyStrip m.1)) ∧
      (buildEntries (bibitemScan bs) ≠ [] →
        createReorderedBibliography order (buildEntries (bibitemScan bs)) opening
          = some (serializeBib opening
              ((reconciledKeys order (buildEntries (bibitemScan bs))).map
                (fun k => fmtEntry k
                  ((assocFind (buildEntries (bibitemScan bs)) k).getD []))))) := by
  have hkeys : (buildEntries (bibitemScan bs)).map Prod.fst
      = (bibitemScan bs).map (fun m => pyStrip m.1) := by
    rw [buildEntries_of_nodup hnd, List.map_map]
    rfl
  constructor
  · rw [← hkeys]
    exact Multiset.coe_eq_coe.mpr
      (reconciledKeys_perm (hkeys ▸ hnd) hord)
  · intro hne
    rw [createReordered_some hne]
    have h1 : (matchPass order (buildEntries (bibitemScan bs))).1
        = (usedKeys order (buildEntries (bibitemScan bs))).map
            (fun k => fmtEntry k ((assocFind (buildEntries (bibitemScan bs)) k).getD [])) := by
      rw [matchPass_eq, usedKeys_eq]
      exact filterMap_eq_map_filter _ _ _
    rw [h1]
    unfold reconciledKeys
    rw [List.map_append]

/-- Witness for the amended C1 theorem at a concrete block and order. -/
theorem c1_set_closure_witness :
    Multiset.ofList (reconciledKeys ["b".data]
        (buildEntries (bibitemScan
          "\\begin\x7bthebibliography\x7d\x7b9\x7d\n\\bibitem\x7ba\x7d\nx\n\\bibitem\x7bb\x7d\ny\n\\end\x7bthebibliography\x7d".data)))
      = Multiset.ofList ((bibitemScan
          "\\begin\x7bthebibliography\x7d\x7b9\x7d\n\\bibitem\x7ba\x7d\nx\n\\bibitem\x7bb\x7d\ny\n\\end\x7bthebibliography\x7d".data).map
          (fun m => pyStrip m.1)) :=
  (c1_set_closure
    "\\begin\x7bthebibliography\x7d\x7b9\x7d\n\\bibitem\x7ba\x7d\nx\n\\bibitem\x7bb\x7d\ny\n\\end\x7bthebibliography\x7d".data
    beginLit ["b".data] (by decide) (by decide)).1

/-! ### Extraction and driver lemmas (claims C5, C6) -/

theorem extract_spec {d : List Char} {ex : BibExtract}
    (h : extractBibliographyEntries d = some ex) :
    ∃ bs be0, findLit beginLit d = some bs ∧ findLit endLit d = some be0 ∧
      ex.bibStart = bs ∧ ex.bibEnd = be0 + endLit.length ∧
      ex.entries = buildEntries (bibitemScan
        ((d.drop bs).take (be0 + endLit.length - bs))) ∧
      ex.openingLine =
        (match findLit beginLit ((d.drop bs).take (be0 + endLit.length - bs)) with
        | some i => (((d.drop bs).take (be0 + endLit.length - bs)).drop i).takeWhile
            (fun x => x != '\n')
        | none => beginLit) := by
  unfold extractBibliographyEntries at h
  cases h1 : findLit beginLit d with
  | none => rw [h1] at h; cases h
  | some bs =>
    cases h2 : findLit endLit d with
    | none => rw [h1, h2] at h; cases h
    | some be0 =>
      rw [h1, h2] at h
      injection h with h
      exact ⟨bs, be0, rfl, rfl, by rw [← h], by rw [← h], by rw [← h], by rw [← h]⟩

theorem extract_bibStart_le {d : List Char} {ex : BibExtract}
    (h : extractBibliographyEntries d = some ex) : ex.bibStart + beginLit.length ≤ d.length := by
  obtain ⟨bs, be0, h1, -, hbs, -, -, -⟩ := extract_spec h
  subst hbs
  exact occursAt_length (by decide) (findLit_some_occursAt h1).1

/-- Claim C5: a successful run rewrites the document as
text[0:block_start] ++ reconciled_block ++ text[block_end:], so every byte
outside the original block's span is unchanged. -/
theorem c5_frame (d out : List Char) (h : reorderLatexBibliography d = Except.ok out) :
    ∃ ex newBib, extractBibliographyEntries d = some ex ∧
      createReorderedBibliography (getOrderedCitations (findAllCitations d)) ex.entries
          ex.openingLine = some newBib ∧
      out = d.take ex.bibStart ++ newBib ++ d.drop ex.bibEnd ∧
      out.take ex.bibStart = d.take ex.bibStart ∧
      out.drop (ex.bibStart + newBib.length) = d.drop ex.bibEnd := by
  unfold reorderLatexBibliography at h
  split at h
  · cases h
  · split at h
    · cases h
    · rename_i ex hx
      split at h
      · cases h
      · rename_i nb hc
        injection h with h
        have hle : ex.bibStart ≤ d.length := by
          have := extract_bibStart_le hx
          omega
        have hlen : (d.take ex.bibStart).length = ex.bibStart := by
          rw [List.length_take]
          omega
        refine ⟨ex, nb, hx, hc, h.symm, ?_, ?_⟩
        · rw [← h, List.append_assoc, List.take_left' hlen]
        · rw [← h, List.drop_left' (by rw [List.length_append, hlen])]

/-- Witness for the C5 theorem at a concrete document. -/
theorem c5_frame_witness :
    ∃ ex newBib,
      extractBibliographyEntries
          "pre \\cite\x7bb\x7d t\n\\begin\x7bthebibliography\x7d\x7b9\x7d\n\\bibitem\x7ba\x7d\nA\n\\bibitem\x7bb\x7d\nB\n\\end\x7bthebibliography\x7d\npost".data
        = some ex ∧
      createReorderedBibliography
          (getOrderedCitations (findAllCitations
            "pre \\cite\x7bb\x7d t\n\\begin\x7bthebibliography\x7d\x7b9\x7d\n\\bibitem\x7ba\x7d\nA\n\\bibitem\x7bb\x7d\nB\n\\end\x7bthebibliography\x7d\npost".data))
          ex.entries ex.openingLine = some newBib ∧
      "pre \\cite\x7bb\x7d t\n\\begin\x7bthebibliography\x7d\x7b9\x7d\n\n\\bibitem\x7bb\x7d\nB\n\n\\bibitem\x7ba\x7d\nA\n\\end\x7bthebibliography\x7d\npost".data
        = "pre \\cite\x7bb\x7d t\n\\begin\x7bthebibliography\x7d\x7b9\x7d\n\\bibitem\x7ba\x7d\nA\n\\bibitem\x7bb\x7d\nB\n\\end\x7bthebibliography\x7d\npost".data.take ex.bibStart
          ++ newBib ++
          "pre \\cite\x7bb\x7d t\n\\begin\x7bthebibliography\x7d\x7b9\x7d\n\\bibitem\x7ba\x7d\nA\n\\bibitem\x7bb\x7d\nB\n\\end\x7bthebibliography\x7d\npost".data.drop ex.bibEnd ∧
      "pre \\cite\x7bb\x7d t\n\\begin\x7bthebibliography\x7d\x7b9\x7d\n\n\\bibitem\x7bb\x7d\nB\n\n\\bibitem\x7ba\x7d\nA\n\\end\x7bthebibliography\x7d\npost".data.take ex.bibStart
        = "pre \\cite\x7bb\x7d t\n\\begin\x7bthebibliography\x7d\x7b9\x7d\n\\bibitem\x7ba\x7d\nA\n\\bibitem\x7bb\x7d\nB\n\\end\x7bthebibliography\x7d\npost".data.take ex.bibStart ∧
      "pre \\cite\x7bb\x7d t\n\\begin\x7bthebibliography\x7d\x7b9\x7d\n\n\\bibitem\x7bb\x7d\nB\n\n\\bibitem\x7ba\x7d\nA\n\\end\x7bthebibliography\x7d\npost".data.drop (ex.bibStart + newBib.length)
        = "pre \\cite\x7bb\x7d t\n\\begin\x7bthebibliography\x7d\x7b9\x7d\n\\bibitem\x7ba\x7d\nA\n\\bibitem\x7bb\x7d\nB\n\\end\x7bthebibliography\x7d\npost".data.drop ex.bibEnd :=
  c5_frame _ _ rfl

/-- Claim C6, counterexample: a document with no citations and no
delimiters fails with the no-citations error, not with a delimiter
error (the citation check runs first, bib_sorter.py lines 165-169). -/
theorem c6_counterexample :
    findLit beginLit "hello".data = none ∧
      reorderLatexBibliography "hello".data
        ≠ Except.error ReorderError.missingDelimiters := by
  constructor
  · decide
  · intro h
    have hr : reorderLatexBibliography "hello".data
        = Except.error ReorderError.noCitations := rfl
    rw [hr] at h
    injection h with h
    cases h

/-- Claim C6, amended: whenever either delimiter is absent the operation
fails (returns an error before any output is written, after which the
process exits non-zero); the error is the delimiter error whenever the
document contains at least one citation, and the no-citations error
otherwise. -/
theorem c6_delimiter_failure (d : List Char)
    (h : findLit beginLit d = none ∨ findLit endLit d = none) :
    (∃ e, reorderLatexBibliography d = Except.error e) ∧
      (¬ (findAllCitations d).isEmpty = true →
        reorderLatexBibliography d = Except.error ReorderError.missingDelimiters) := by
  have hex : extractBibliographyEntries d = none := by
    unfold extractBibliographyEntries
    rcases h with h | h
    · rw [h]
    · rw [h]
      cases findLit beginLit d <;> rfl
  constructor
  · unfold reorderLatexBibliography
    by_cases ht : (findAllCitations d).isEmpty
    · rw [if_pos ht]
      exact ⟨_, rfl⟩
    · rw [if_neg ht, hex]
      exact ⟨_, rfl⟩
  · intro ht
    unfold reorderLatexBibliography
    rw [if_neg ht, hex]

/-- Witness for the amended C6 theorem at a concrete document. -/
theorem c6_delimiter_failure_witness :
    (findLit beginLit "x \\cite\x7ba\x7d y".data = none ∨
        findLit endLit "x \\cite\x7ba\x7d y".data = none) ∧
      reorderLatexBibliography "x \\cite\x7ba\x7d y".data
        = Except.error ReorderError.missingDelimiters :=
  ⟨Or.inl (by decide),
    (c6_delimiter_failure "x \\cite\x7ba\x7d y".data (Or.inl (by decide))).2 (by decide)⟩

/-! ### Citation scanner lemmas (claims C4, C10) -/

theorem bracketSkip_length {r1 r2 : List Char} (h : bracketSkip r1 = some r2) :
    r2.length ≤ r1.length := by
  unfold bracketSkip at h
  split at h
  · rename_i t
    split at h
    · rename_i r hd
      injection h with h
      subst h
      have hlen := (List.dropWhile_sublist (l := t) (fun x => x != ']')).length_le
      rw [hd] at hlen
      simp only [List.length_cons] at hlen ⊢
      omega
    · cases h
  · injection h with h
    subst h
    exact le_rfl

theorem braceBody_some {r2 body rem : List Char} (h : braceBody r2 = some (body, rem)) :
    body ≠ [] ∧ (∀ x ∈ body, x ≠ '}') ∧ body.length + rem.length + 2 = r2.length := by
  unfold braceBody at h
  split at h
  · rename_i t
    by_cases hb : (t.takeWhile (fun x => x != '}')).isEmpty
    · rw [if_pos hb] at h; cases h
    · rw [if_neg hb] at h
      split at h
      · rename_i r hd
        injection h with h
        injection h with h1 h2
        subst h1
        subst h2
        refine ⟨?_, ?_, ?_⟩
        · intro hnil
          rw [hnil] at hb
          exact hb rfl
        · intro x hx
          have := List.mem_takeWhile_imp hx
          simpa using this
        · have := takeWhile_add_dropWhile_length (fun x => x != '}') t
          rw [hd] at this
          simp only [List.length_cons] at this ⊢
          omega
      · cases h
  · cases h

theorem tryCite_some {cs body rem : List Char} (h : tryCite cs = some (body, rem)) :
    body ≠ [] ∧ (∀ x ∈ body, x ≠ '}') ∧ body.length + rem.length + 7 ≤ cs.length := by
  unfold tryCite at h
  split at h
  · rename_i htake
    split at h
    · cases h
    · rename_i r2 hbr
      obtain ⟨h1, h2, h3⟩ := braceBody_some h
      have hcs5 : 5 ≤ cs.length := by
        have := congrArg List.length htake
        simp only [List.length_take] at this
        have h5 : citeLit.length = 5 := rfl
        rw [h5] at this
        omega
      have hr2 : r2.length ≤ cs.length - 5 := by
        have := bracketSkip_length hbr
        simp only [List.length_drop] at this
        omega
      exact ⟨h1, h2, by omega⟩
  · cases h

theorem scanCiteF_succ_cons (f pos : Nat) (c : Char) (cs : List Char) :
    scanCiteF (f + 1) pos (c :: cs) =
      match tryCite (c :: cs) with
      | some (body, rem) =>
        (pos, body) :: scanCiteF f (pos + ((c :: cs).length - rem.length)) rem
      | none => scanCiteF f (pos + 1) cs := rfl

theorem scanCiteF_pos_le : ∀ (f pos : Nat) (cs : List Char),
    ∀ m ∈ scanCiteF f pos cs, pos ≤ m.1 := by
  intro f
  induction f with
  | zero => intro pos cs m hm; cases hm
  | succ f ih =>
    intro pos cs m hm
    cases cs with
    | nil => cases hm
    | cons c t =>
      rw [scanCiteF_succ_cons] at hm
      cases htc : tryCite (c :: t) with
      | none =>
        rw [htc] at hm
        have := ih (pos + 1) t m hm
        omega
      | some br =>
        rcases br with ⟨body, rem⟩
        rw [htc] at hm
        rcases List.mem_cons.mp hm with hm | hm
        · rw [hm]
        · have := ih _ rem m hm
          omega

theorem scanCiteF_pairwise : ∀ (f pos : Nat) (cs : List Char),
    List.Pairwise (fun m m' => m.1 + m.2.length + 7 ≤ m'.1) (scanCiteF f pos cs) := by
  intro f
  induction f with
  | zero => intro pos cs; constructor
  | succ f ih =>
    intro pos cs
    cases cs with
    | nil => constructor
    | cons c t =>
      rw [scanCiteF_succ_cons]
      cases htc : tryCite (c :: t) with
      | none => exact ih (pos + 1) t
      | some br =>
        rcases br with ⟨body, rem⟩
        refine List.pairwise_cons.mpr ⟨?_, ih _ rem⟩
        intro m' hm'
        have hle := scanCiteF_pos_le f (pos + ((c :: t).length - rem.length)) rem m' hm'
        obtain ⟨-, -, h3⟩ := tryCite_some htc
        simp only
        omega

theorem splitComma_length (l : List Char) : (splitComma l).length ≤ l.length + 1 := by
  induction l with
  | nil => exact le_rfl
  | cons c t ih =>
    unfold splitComma
    by_cases hc : c = ','
    · rw [if_pos hc]
      simp only [List.length_cons]
      omega
    · rw [if_neg hc]
      cases hs : splitComma t with
      | nil => simp
      | cons h r =>
        rw [hs] at ih
        simp only [List.length_cons] at ih ⊢
        omega

theorem groupOccs_bounds (p : Nat) : ∀ (ks : List (List Char)) (i : Nat) (o : ℚ × List Char),
    o ∈ groupOccs p i ks →
      (p : ℚ) + (i : ℚ) * (1 / 1000) ≤ o.1 ∧
        o.1 < (p : ℚ) + ((i + ks.length : Nat) : ℚ) * (1 / 1000) := by
  intro ks
  induction ks with
  | nil => intro i o ho; cases ho
  | cons k t ih =>
    intro i o ho
    rcases List.mem_cons.mp ho with ho | ho
    · subst ho
      refine ⟨le_rfl, ?_⟩
      have hcast : ((i + (t.length + 1) : Nat) : ℚ) = (i : ℚ) + (t.length : ℚ) + 1 := by
        push_cast
        ring
      simp only [List.length_cons]
      rw [hcast]
      have ht0 : (0 : ℚ) ≤ (t.length : ℚ) := Nat.cast_nonneg _
      linarith
    · have hb := ih (i + 1) o ho
      have hi1 : ((i + 1 : Nat) : ℚ) = (i : ℚ) + 1 := by push_cast; ring
      refine ⟨?_, ?_⟩
      · refine le_trans ?_ hb.1
        rw [hi1]
        linarith
      · refine lt_of_lt_of_le hb.2 (le_of_eq ?_)
        simp only [List.length_cons]
        push_cast
        ring

theorem groupOccs_pairwise (p : Nat) : ∀ (ks : List (List Char)) (i : Nat),
    List.Pairwise (fun a b => a.1 < b.1) (groupOccs p i ks) := by
  intro ks
  induction ks with
  | nil => intro i; constructor
  | cons k t ih =>
    intro i
    refine List.pairwise_cons.mpr ⟨?_, ih (i + 1)⟩
    intro o ho
    have hb := (groupOccs_bounds p t (i + 1) o ho).1
    have hi1 : ((i + 1 : Nat) : ℚ) = (i : ℚ) + 1 := by push_cast; ring
    rw [hi1] at hb
    simp only
    linarith

theorem groupOccs_mem_get (p : Nat) : ∀ (ks : List (List Char)) (i j : Nat)
    (hj : j < ks.length),
    ((p : ℚ) + ((i + j : Nat) : ℚ) * (1 / 1000), pyStrip (ks.get ⟨j, hj⟩))
      ∈ groupOccs p i ks := by
  intro ks
  induction ks with
  | nil => intro i j hj; simp at hj
  | cons k t ih =>
    intro i j hj
    cases j with
    | zero =>
      have : ((i + 0 : Nat) : ℚ) = (i : ℚ) := by norm_num
      rw [this]
      exact List.mem_cons_self _ _
    | succ j =>
      have hj' : j < t.length := by simpa using Nat.lt_succ_iff.mp (by simpa using hj)
      have hmem := ih (i + 1) j hj'
      have hcast : ((i + 1 + j : Nat) : ℚ) = ((i + (j + 1) : Nat) : ℚ) := by
        congr 1
        omega
      rw [hcast] at hmem
      exact List.mem_cons_of_mem _ hmem

theorem expandOne_bounds (m : Nat × List Char) (o : ℚ × List Char)
    (ho : o ∈ (if ',' ∈ m.2 then groupOccs m.1 0 (splitComma m.2)
      else [((m.1 : ℚ), pyStrip m.2)])) :
    (m.1 : ℚ) ≤ o.1 ∧ o.1 < (m.1 : ℚ) + (m.2.length : ℚ) + 7 := by
  by_cases hc : ',' ∈ m.2
  · rw [if_pos hc] at ho
    have hb := groupOccs_bounds m.1 (splitComma m.2) 0 o ho
    have hsl : ((splitComma m.2).length : ℚ) ≤ (m.2.length : ℚ) + 1 := by
      exact_mod_cast splitComma_length m.2
    have h1 : (m.1 : ℚ) + ((0 : Nat) : ℚ) * (1 / 1000) = (m.1 : ℚ) := by norm_num
    have h2 : ((0 + (splitComma m.2).length : Nat) : ℚ) = ((splitComma m.2).length : ℚ) := by
      norm_num
    rw [h1] at hb
    rw [h2] at hb
    have hnn : (0 : ℚ) ≤ ((splitComma m.2).length : ℚ) := Nat.cast_nonneg _
    exact ⟨hb.1, by nlinarith [hb.2]⟩
  · rw [if_neg hc] at ho
    rcases List.mem_singleton.mp ho with rfl
    have hnn : (0 : ℚ) ≤ (m.2.length : ℚ) := Nat.cast_nonneg _
    exact ⟨le_rfl, by linarith⟩

theorem expandOcc_mem_bounds : ∀ (ms : List (Nat × List Char)) (o : ℚ × List Char),
    o ∈ expandOccurrences ms →
      ∃ m ∈ ms, (m.1 : ℚ) ≤ o.1 ∧ o.1 < (m.1 : ℚ) + (m.2.length : ℚ) + 7 := by
  intro ms
  induction ms with
  | nil => intro o ho; cases ho
  | cons m t ih =>
    intro o ho
    unfold expandOccurrences at ho
    rcases List.mem_append.mp ho with ho | ho
    · exact ⟨m, List.mem_cons_self _ _, expandOne_bounds m o ho⟩
    · obtain ⟨m', hm', hb⟩ := ih o ho
      exact ⟨m', List.mem_cons_of_mem _ hm', hb⟩

theorem expandOcc_pairwise : ∀ {ms : List (Nat × List Char)},
    List.Pairwise (fun m m' => m.1 + m.2.length + 7 ≤ m'.1) ms →
    List.Pairwise (fun a b => a.1 < b.1) (expandOccurrences ms) := by
  intro ms
  induction ms with
  | nil => intro _; constructor
  | cons m t ih =>
    intro h
    obtain ⟨hrel, htail⟩ := List.pairwise_cons.mp h
    unfold expandOccurrences
    rw [List.pairwise_append]
    refine ⟨?_, ih htail, ?_⟩
    · by_cases hc : ',' ∈ m.2
      · rw [if_pos hc]
        exact groupOccs_pairwise m.1 (splitComma m.2) 0
      · rw [if_neg hc]
        exact List.pairwise_singleton _ _
    · intro a ha b hb
      have hA := expandOne_bounds m a ha
      obtain ⟨m', hm', hb1, -⟩ := expandOcc_mem_bounds t b hb
      have hgap := hrel m' hm'
      have hcast : ((m.1 + m.2.length + 7 : Nat) : ℚ) ≤ ((m'.1 : Nat) : ℚ) := by
        exact_mod_cast hgap
      push_cast at hcast
      linarith [hA.2, hb1]

theorem citationOccurrences_pairwise (cs : List Char) :
    List.Pairwise (fun a b => a.1 < b.1) (citationOccurrences cs) :=
  expandOcc_pairwise (scanCiteF_pairwise cs.length 0 cs)

/-! ### Citation tracker lemmas (claim C4) -/

theorem addCitation_eq (acc : List (List Char × ℚ)) (pos : ℚ) (key : List Char) :
    addCitation acc pos key =
      if acc.any (fun p => p.1 = pyStrip key) then acc
      else acc ++ [(pyStrip key, pos)] := rfl

theorem any_key_iff {acc : List (List Char × ℚ)} {k : List Char} :
    acc.any (fun p => p.1 = k) = true ↔ k ∈ acc.map Prod.fst := by
  rw [List.any_eq_true]
  constructor
  · rintro ⟨p, hp, hpk⟩
    exact List.mem_map.mpr ⟨p, hp, of_decide_eq_true hpk⟩
  · intro h
    obtain ⟨p, hp, hpk⟩ := List.mem_map.mp h
    exact ⟨p, hp, decide_eq_true hpk⟩

theorem trackFold_append : ∀ (occs : List (ℚ × List Char)) (acc : List (List Char × ℚ)),
    ∃ ext, occs.foldl (fun acc o => addCitation acc o.1 o.2) acc = acc ++ ext := by
  intro occs
  induction occs with
  | nil => intro acc; exact ⟨[], by simp⟩
  | cons o t ih =>
    intro acc
    rw [List.foldl_cons, addCitation_eq]
    by_cases hm : acc.any (fun p => p.1 = pyStrip o.2) = true
    · rw [if_pos hm]
      exact ih acc
    · rw [if_neg hm]
      obtain ⟨ext, hext⟩ := ih (acc ++ [(pyStrip o.2, o.1)])
      exact ⟨[(pyStrip o.2, o.1)] ++ ext, by rw [hext, List.append_assoc]⟩

theorem trackFold_mem_keys : ∀ (occs : List (ℚ × List Char)) (acc : List (List Char × ℚ))
    (k : List Char),
    k ∈ (occs.foldl (fun acc o => addCitation acc o.1 o.2) acc).map Prod.fst ↔
      k ∈ acc.map Prod.fst ∨ k ∈ occs.map (fun o => pyStrip o.2) := by
  intro occs
  induction occs with
  | nil => intro acc k; simp
  | cons o t ih =>
    intro acc k
    rw [List.foldl_cons, addCitation_eq, List.map_cons]
    by_cases hm : acc.any (fun p => p.1 = pyStrip o.2) = true
    · rw [if_pos hm, ih]
      constructor
      · rintro (h | h)
        · exact Or.inl h
        · exact Or.inr (List.mem_cons_of_mem _ h)
      · rintro (h | h)
        · exact Or.inl h
        · rcases List.mem_cons.mp h with h | h
          · exact Or.inl (h ▸ any_key_iff.mp hm)
          · exact Or.inr h
    · rw [if_neg hm, ih, List.map_append]
      simp only [List.map_cons, List.map_nil, List.mem_append, List.mem_singleton,
        List.mem_cons]
      tauto

theorem trackFold_sorted : ∀ (occs : List (ℚ × List Char)) (acc : List (List Char × ℚ)),
    List.Pairwise (fun a b => a.1 < b.1) occs →
    (acc.map Prod.fst).Nodup →
    List.Pairwise (fun a b => a.2 < b.2) acc →
    (∀ a ∈ acc, ∀ o ∈ occs, a.2 < o.1) →
    ((occs.foldl (fun acc o => addCitation acc o.1 o.2) acc).map Prod.fst).Nodup ∧
      List.Pairwise (fun a b => a.2 < b.2)
        (occs.foldl (fun acc o => addCitation acc o.1 o.2) acc) := by
  intro occs
  induction occs with
  | nil => intro acc _ h2 h3 _; exact ⟨h2, h3⟩
  | cons o t ih =>
    intro acc hocc hnd hsort hlt
    obtain ⟨horel, hot⟩ := List.pairwise_cons.mp hocc
    rw [List.foldl_cons, addCitation_eq]
    by_cases hm : acc.any (fun p => p.1 = pyStrip o.2) = true
    · rw [if_pos hm]
      exact ih acc hot hnd hsort (fun a ha o' ho' => hlt a ha o' (List.mem_cons_of_mem _ ho'))
    · rw [if_neg hm]
      apply ih _ hot
      · rw [List.map_append, List.nodup_append]
        refine ⟨hnd, by simp, ?_⟩
        intro a ha hb
        simp only [List.map_cons, List.map_nil, List.mem_singleton] at hb
        rw [hb] at ha
        exact hm (any_key_iff.mpr ha)
      · rw [List.pairwise_append]
        refine ⟨hsort, List.pairwise_singleton _ _, ?_⟩
        intro a ha b hb
        rcases List.mem_singleton.mp hb with rfl
        exact hlt a ha o (List.mem_cons_self _ _)
      · intro a ha o' ho'
        rcases List.mem_append.mp ha with ha | ha
        · exact hlt a ha o' (List.mem_cons_of_mem _ ho')
        · rcases List.mem_singleton.mp ha with rfl
          exact horel o' ho'

theorem assocFind_append {β : Type} (A B : List (List Char × β)) (k : List Char) :
    assocFind (A ++ B) k =
      match assocFind A k with
      | some v => some v
      | none => assocFind B k := by
  induction A with
  | nil => rfl
  | cons p t ih =>
    rcases p with ⟨a, v⟩
    rw [List.cons_append, assocFind_cons, assocFind_cons]
    by_cases h : a = k
    · rw [if_pos h, if_pos h]
    · rw [if_neg h, if_neg h, ih]

theorem trackFold_lookup_some : ∀ (occs : List (ℚ × List Char))
    (acc : List (List Char × ℚ)) (k : List Char) (v : ℚ),
    assocFind acc k = some v →
    assocFind (occs.foldl (fun acc o => addCitation acc o.1 o.2) acc) k = some v := by
  intro occs
  induction occs with
  | nil => intro acc k v h; exact h
  | cons o t ih =>
    intro acc k v h
    rw [List.foldl_cons, addCitation_eq]
    by_cases hm : acc.any (fun p => p.1 = pyStrip o.2) = true
    · rw [if_pos hm]
      exact ih acc k v h
    · rw [if_neg hm]
      apply ih
      rw [assocFind_append, h]

theorem trackFold_lookup_none : ∀ (occs : List (ℚ × List Char))
    (acc : List (List Char × ℚ)) (k : List Char),
    assocFind acc k = none →
    assocFind (occs.foldl (fun acc o => addCitation acc o.1 o.2) acc) k =
      (occs.find? (fun o => decide (pyStrip o.2 = k))).map Prod.fst := by
  intro occs
  induction occs with
  | nil => intro acc k h; exact h
  | cons o t ih =>
    intro acc k h
    rw [List.foldl_cons, addCitation_eq]
    by_cases hk : pyStrip o.2 = k
    · by_cases hm : acc.any (fun p => p.1 = pyStrip o.2) = true
      · exfalso
        have := any_key_iff.mp hm
        rw [hk] at this
        exact (assocFind_eq_none_iff.mp h) this
      · rw [if_neg hm]
        rw [List.find?_cons_of_pos _ (by simpa using hk)]
        apply trackFold_lookup_some
        rw [assocFind_append, h, assocFind_cons, if_pos hk]
    · rw [List.find?_cons_of_neg _ (by simpa using hk)]
      by_cases hm : acc.any (fun p => p.1 = pyStrip o.2) = true
      · rw [if_pos hm]
        exact ih acc k h
      · rw [if_neg hm]
        apply ih
        rw [assocFind_append, h, assocFind_cons, if_neg hk]
        rfl

theorem insSorted_of_lt {x : List Char × ℚ} : ∀ {t : List (List Char × ℚ)},
    (∀ y ∈ t, x.2 < y.2) → insSorted x t = x :: t := by
  intro t h
  cases t with
  | nil => rfl
  | cons y t' =>
    unfold insSorted
    rw [if_neg (fun hlt => (lt_asymm hlt) (h y (List.mem_cons_self _ _)))]

theorem sortByPos_of_sorted : ∀ {l : List (List Char × ℚ)},
    List.Pairwise (fun a b => a.2 < b.2) l → sortByPos l = l := by
  intro l
  induction l with
  | nil => intro _; rfl
  | cons x t ih =>
    intro h
    obtain ⟨hx, ht⟩ := List.pairwise_cons.mp h
    unfold sortByPos at ih ⊢
    rw [List.foldr_cons, ih ht, insSorted_of_lt hx]

/-- Claim C4: citation occurrences are produced in strictly increasing
(exact-rational) offset order, so ties cannot occur for any group size;
the resolved order is the tracker's key list (sorting by first-appearance
position is the identity on it), lists exactly the cited keys, each
exactly once; each key's recorded position comes from its first occurrence
only; and the earliest-cited key is first.  (Python's float offsets
`position + i * 0.001` are modelled as exact rationals.) -/
theorem c4_citation_order (cs : List Char) :
    List.Pairwise (fun a b => a.1 < b.1) (citationOccurrences cs) ∧
      orderedCitations cs = (findAllCitations cs).map Prod.fst ∧
      List.Pairwise (fun a b => a.2 < b.2) (findAllCitations cs) ∧
      (∀ k, k ∈ orderedCitations cs ↔
        k ∈ (citationOccurrences cs).map (fun o => pyStrip o.2)) ∧
      (orderedCitations cs).Nodup ∧
      (∀ k, assocFind (findAllCitations cs) k
        = ((citationOccurrences cs).find? (fun o => decide (pyStrip o.2 = k))).map
            Prod.fst) ∧
      (∀ o rest, citationOccurrences cs = o :: rest →
        ∃ ext, orderedCitations cs = pyStrip o.2 :: ext) := by
  have hocc := citationOccurrences_pairwise cs
  have hfold := trackFold_sorted (citationOccurrences cs) [] hocc (by simp)
    (List.Pairwise.nil) (by intro a ha; cases ha)
  have hnd : ((findAllCitations cs).map Prod.fst).Nodup := hfold.1
  have hsorted : List.Pairwise (fun a b => a.2 < b.2) (findAllCitations cs) := hfold.2
  have hord : orderedCitations cs = (findAllCitations cs).map Prod.fst := by
    unfold orderedCitations getOrderedCitations
    rw [sortByPos_of_sorted hsorted]
  refine ⟨hocc, hord, hsorted, ?_, ?_, ?_, ?_⟩
  · intro k
    rw [hord]
    have := trackFold_mem_keys (citationOccurrences cs) [] k
    simpa using this
  · rw [hord]
    exact hnd
  · intro k
    exact trackFold_lookup_none (citationOccurrences cs) [] k rfl
  · intro o rest hocc_eq
    rw [hord]
    unfold findAllCitations
    rw [hocc_eq, List.foldl_cons]
    have haddnil : addCitation [] o.1 o.2 = [(pyStrip o.2, o.1)] := rfl
    rw [haddnil]
    obtain ⟨ext, hext⟩ := trackFold_append rest [(pyStrip o.2, o.1)]
    refine ⟨ext.map Prod.fst, ?_⟩
    rw [hext, List.map_append]
    rfl

/-- Witness for the C4 theorem at a concrete document: the earliest-cited
key of the grouped marker comes first in the resolved order. -/
theorem c4_citation_order_witness :
    ∃ ext, orderedCitations "a \\cite\x7bb,a\x7d \\cite\x7ba\x7d".data
      = "b".data :: ext := by
  obtain ⟨ext, hext⟩ :=
    (c4_citation_order "a \\cite\x7bb,a\x7d \\cite\x7ba\x7d".data).2.2.2.2.2.2 _ _ rfl
  exact ⟨ext, hext.trans rfl⟩

/-! ### Empty citation keys (claim C10) -/

theorem expandOcc_sub : ∀ (ms : List (Nat × List Char)) (m : Nat × List Char), m ∈ ms →
    ∀ (o : ℚ × List Char),
    o ∈ (if ',' ∈ m.2 then groupOccs m.1 0 (splitComma m.2)
      else [((m.1 : ℚ), pyStrip m.2)]) →
    o ∈ expandOccurrences ms := by
  intro ms
  induction ms with
  | nil => intro m hm; cases hm
  | cons m0 t ih =>
    intro m hm o ho
    unfold expandOccurrences
    rcases List.mem_cons.mp hm with hm | hm
    · subst hm
      exact List.mem_append_left _ ho
    · exact List.mem_append_right _ (ih m hm o ho)

/-- Claim C10: a multi-key citation marker with an empty component (after
whitespace stripping) yields an occurrence whose key is the empty string,
and nothing skips or rejects it: every indexed component of every
comma-containing match is emitted as an occurrence with its stripped key,
every occurrence's key is recorded by the tracker, and every recorded key
appears in the resolved citation order. -/
theorem c10_empty_keys (cs : List Char) :
    (∀ m ∈ scanCitations cs, ',' ∈ m.2 →
      ∀ (j : Nat) (hj : j < (splitComma m.2).length),
        (((m.1 : Nat) : ℚ) + ((j : Nat) : ℚ) * (1 / 1000),
          pyStrip ((splitComma m.2).get ⟨j, hj⟩)) ∈ citationOccurrences cs) ∧
      (∀ o ∈ citationOccurrences cs, pyStrip o.2 ∈ (findAllCitations cs).map Prod.fst) ∧
      (∀ k ∈ (findAllCitations cs).map Prod.fst, k ∈ orderedCitations cs) := by
  refine ⟨?_, ?_, ?_⟩
  · intro m hm hc j hj
    have hmem := groupOccs_mem_get m.1 (splitComma m.2) 0 j hj
    have hz : ((0 + j : Nat) : ℚ) = ((j : Nat) : ℚ) := by norm_num
    rw [hz] at hmem
    exact expandOcc_sub (scanCitations cs) m hm _ (by rw [if_pos hc]; exact hmem)
  · intro o ho
    unfold findAllCitations
    rw [trackFold_mem_keys]
    right
    exact List.mem_map.mpr ⟨o, ho, rfl⟩
  · intro k hk
    have hfold := trackFold_sorted (citationOccurrences cs) []
      (citationOccurrences_pairwise cs) (by simp) List.Pairwise.nil
      (by intro a ha; cases ha)
    have hsor : List.Pairwise (fun a b => a.2 < b.2) (findAllCitations cs) := hfold.2
    have hord : orderedCitations cs = (findAllCitations cs).map Prod.fst := by
      unfold orderedCitations getOrderedCitations
      rw [sortByPos_of_sorted hsor]
    rw [hord]
    exact hk

/-- Witness for the C10 theorem: in `\cite\x7ba,,b\x7d` the middle component is
empty; its occurrence is emitted with the empty-string key, which then
appears in the resolved citation order. -/
theorem c10_empty_keys_witness :
    (((0 : Nat) : ℚ) + ((1 : Nat) : ℚ) * (1 / 1000),
        pyStrip ((splitComma "a,,b".data).get ⟨1, by decide⟩))
      ∈ citationOccurrences "\\cite\x7ba,,b\x7d".data ∧
      ([] : List Char) ∈ orderedCitations "\\cite\x7ba,,b\x7d".data := by
  have h := c10_empty_keys "\\cite\x7ba,,b\x7d".data
  have h1 := h.1 (0, "a,,b".data) (by decide) (by decide) 1 (by decide)
  refine ⟨h1, ?_⟩
  have hmem := h.2.1 _ h1
  exact h.2.2 [] hmem

/-! ### Further occursAt machinery (claim C8) -/

theorem occursAt_getElem {lit l : List Char} {i : Nat} (h : occursAt lit l i)
    {j : Nat} (hj : j < lit.length) : l[i + j]? = lit[j]? := by
  unfold occursAt at h
  conv_rhs => rw [← h]
  rw [List.getElem?_take_of_lt hj, List.getElem?_drop]

theorem occursAt_shift {lit A B : List Char} {i : Nat} :
    occursAt lit (A ++ B) (A.length + i) ↔ occursAt lit B i := by
  unfold occursAt
  rw [List.drop_append]

theorem no_occursAt_of_newline {lit l : List Char} {i m : Nat}
    (hnl : '\n' ∉ lit) (hm : l[m]? = some '\n') (h1 : i ≤ m) (h2 : m < i + lit.length) :
    ¬ occursAt lit l i := by
  intro h
  have hg := occursAt_getElem h (j := m - i) (by omega)
  rw [show i + (m - i) = m by omega, hm] at hg
  exact hnl (List.getElem?_mem hg.symm)

theorem no_occursAt_of_head {lit l : List Char} {i : Nat} {c : Char}
    (hc : lit[0]? = some c) (hl : l[i]? ≠ some c) (hlit : lit ≠ []) :
    ¬ occursAt lit l i := by
  intro h
  have hg := occursAt_getElem h (j := 0)
    (by cases lit with | nil => exact absurd rfl hlit | cons a t => simp)
  rw [Nat.add_zero, hc] at hg
  exact hl hg

theorem findLit_eq_of {lit l : List Char} {s : Nat} (h1 : occursAt lit l s)
    (h2 : ∀ i < s, ¬ occursAt lit l i) : findLit lit l = some s := by
  obtain ⟨j, hj, hle⟩ := findLit_le_of_occursAt h1
  rcases Nat.lt_or_ge j s with hlt | hge
  · exact absurd (findLit_some_occursAt hj).1 (h2 j hlt)
  · rw [← le_antisymm hle hge]
    exact hj

theorem occursAt_take {lit X : List Char} {j i : Nat} (hlit : lit ≠ [])
    (h : occursAt lit (X.take j) i) : occursAt lit X i := by
  have hlen := occursAt_length hlit h
  have hsplit : X = X.take j ++ X.drop j := (List.take_append_drop j X).symm
  rw [hsplit]
  exact (occursAt_append_left_iff hlen).mpr h

theorem noOccur_drop {lit l : List Char} (n : Nat) (h : noOccur lit l) :
    noOccur lit (l.drop n) := by
  intro i hi
  unfold occursAt at hi
  rw [List.drop_drop] at hi
  exact h _ hi

theorem noOccur_left {lit A B : List Char} (hlit : lit ≠ [])
    (h : noOccur lit (A ++ B)) : noOccur lit A := by
  intro i hi
  have hlen := occursAt_length hlit hi
  exact h i ((occursAt_append_left_iff hlen).mpr hi)

theorem noOccur_pyStrip {lit l : List Char} (hlit : lit ≠ []) (h : noOccur lit l) :
    noOccur lit (pyStrip l) := by
  obtain ⟨n, hn⟩ := exists_dropWhile_eq_drop isPySpace l
  have h1 : noOccur lit (l.dropWhile isPySpace) := by
    rw [hn]
    exact noOccur_drop n h
  have hsplit := rtrim_split isPySpace (l.dropWhile isPySpace)
  rw [hsplit] at h1
  exact noOccur_left hlit h1

theorem noOccur_matchBlank_rem {lit : List Char} {c : Char} {cs rem : List Char}
    (h : matchBlank (c :: cs) = some rem) (hcs : noOccur lit cs) : noOccur lit rem := by
  obtain ⟨-, hrem⟩ := matchBlank_some_eq h
  have hw : cs.takeWhile isPySpace
      = ((cs.takeWhile isPySpace).reverse.dropWhile (fun x => x != '\n')).reverse
        ++ ((cs.takeWhile isPySpace).reverse.takeWhile (fun x => x != '\n')).reverse :=
    rtrim_split _ _
  have hcseq : cs = ((cs.takeWhile isPySpace).reverse.dropWhile (fun x => x != '\n')).reverse
      ++ (((cs.takeWhile isPySpace).reverse.takeWhile (fun x => x != '\n')).reverse
        ++ cs.dropWhile isPySpace) := by
    conv_lhs => rw [← List.takeWhile_append_dropWhile (p := isPySpace) (l := cs)]
    conv_lhs => rw [hw]
    rw [List.append_assoc]
  intro i hi
  rw [hrem] at hi
  have h2 := (occursAt_shift
    (A := ((cs.takeWhile isPySpace).reverse.dropWhile (fun x => x != '\n')).reverse)
    (B := ((cs.takeWhile isPySpace).reverse.takeWhile (fun x => x != '\n')).reverse
      ++ cs.dropWhile isPySpace)).mpr hi
  rw [← hcseq] at h2
  exact hcs _ h2

theorem prefix_subBlank {lit : List Char} (hnl : '\n' ∉ lit) :
    ∀ (X : List Char), lit <+: subBlank X → lit <+: X := by
  have main : ∀ (n : Nat) (X : List Char), X.length = n →
      ∀ (l : List Char), '\n' ∉ l → l <+: subBlank X → l <+: X := by
    intro n
    induction n using Nat.strong_induction_on with
    | _ n ih =>
      intro X hX l hl hpre
      cases X with
      | nil =>
        rw [subBlank_nil] at hpre
        exact hpre
      | cons c cs =>
        cases hm : matchBlank (c :: cs) with
        | none =>
          rw [subBlank_cons_none hm] at hpre
          cases l with
          | nil => exact List.nil_prefix
          | cons a l' =>
            obtain ⟨t, ht⟩ := hpre
            rw [List.cons_append] at ht
            injection ht with h1 h2
            subst h1
            have hl' : '\n' ∉ l' := fun hx => hl (List.mem_cons_of_mem _ hx)
            have : l' <+: cs := by
              apply ih cs.length (by rw [← hX]; simp) cs rfl l' hl'
              exact ⟨t, h2⟩
            obtain ⟨t2, ht2⟩ := this
            exact ⟨t2, by rw [List.cons_append, ht2]⟩
        | some rem =>
          rw [subBlank_cons_some hm] at hpre
          cases l with
          | nil => exact List.nil_prefix
          | cons a l' =>
            obtain ⟨t, ht⟩ := hpre
            rw [List.cons_append] at ht
            injection ht with h1 h2
            exact absurd (show '\n' ∈ a :: l' by rw [h1]; exact List.mem_cons_self _ _) hl
  intro X h
  exact main X.length X rfl lit hnl h

theorem noOccur_subBlank {lit : List Char} (hnl : '\n' ∉ lit) (hlit : lit ≠ []) :
    ∀ (X : List Char), noOccur lit X → noOccur lit (subBlank X) := by
  have main : ∀ (n : Nat) (X : List Char), X.length = n →
      noOccur lit X → noOccur lit (subBlank X) := by
    intro n
    induction n using Nat.strong_induction_on with
    | _ n ih =>
      intro X hX h
      cases X with
      | nil =>
        rw [subBlank_nil]
        exact h
      | cons c cs =>
        have hcs : noOccur lit cs := by
          intro j hj
          exact h (j + 1) (occursAt_succ_cons.mpr hj)
        cases hm : matchBlank (c :: cs) with
        | none =>
          rw [subBlank_cons_none hm]
          intro i hi
          cases i with
          | zero =>
            have hpre : lit <+: (c :: subBlank cs) :=
              List.prefix_iff_eq_take.mpr (occursAt_zero_iff.mp hi).symm
            have : lit <+: (c :: cs) := by
              rw [← subBlank_cons_none hm] at hpre
              exact prefix_subBlank hnl (c :: cs) hpre
            exact h 0 (occursAt_zero_iff.mpr (List.prefix_iff_eq_take.mp this).symm)
          | succ i =>
            have := occursAt_succ_cons.mp hi
            exact ih cs.length (by rw [← hX]; simp) cs rfl hcs i this
        | some rem =>
          rw [subBlank_cons_some hm]
          have hrem : noOccur lit rem := noOccur_matchBlank_rem hm hcs
          have hreml : rem.length < n := by
            have := matchBlank_some_len hm
            rw [← hX]
            simp only [List.length_cons]
            omega
          intro i hi
          cases i with
          | zero =>
            have hpre : lit <+: ('\n' :: subBlank rem) :=
              List.prefix_iff_eq_take.mpr (occursAt_zero_iff.mp hi).symm
            cases lit with
            | nil => exact hlit rfl
            | cons a l' =>
              obtain ⟨t, ht⟩ := hpre
              rw [List.cons_append] at ht
              injection ht with h1 h2
              exact hnl (show '\n' ∈ a :: l' by rw [h1]; exact List.mem_cons_self _ _)
          | succ i =>
            exact ih rem.length hreml rem rfl hrem i (occursAt_succ_cons.mp hi)
  intro X h
  exact main X.length X rfl h

theorem noOccur_normalizeBody {lit : List Char} (hnl : '\n' ∉ lit) (hlit : lit ≠ [])
    {x : List Char} (h : noOccur lit x) : noOccur lit (normalizeBody x) := by
  unfold normalizeBody
  exact noOccur_pyStrip hlit (noOccur_subBlank hnl hlit _ (noOccur_pyStrip hlit h))

/-! ### Properties of parsed entries (claim C8) -/

theorem pyStrip_subset {l : List Char} : ∀ x ∈ pyStrip l, x ∈ l := by
  intro x hx
  unfold pyStrip at hx
  rw [List.mem_reverse] at hx
  have hx2 := List.dropWhile_subset _ hx
  rw [List.mem_reverse] at hx2
  exact List.dropWhile_subset _ hx2

theorem insertEntry_mem {d : List (List Char × List Char)} {k v : List Char} :
    ∀ q ∈ insertEntry d k v, q ∈ d ∨ q = (k, v) := by
  intro q hq
  unfold insertEntry at hq
  by_cases hc : d.any (fun p => p.1 = k) = true
  · rw [if_pos hc] at hq
    obtain ⟨p, hp, hpq⟩ := List.mem_map.mp hq
    by_cases hpk : p.1 = k
    · right
      rw [if_pos hpk] at hpq
      rw [← hpq, hpk]
    · left
      rw [if_neg hpk] at hpq
      rw [← hpq]
      exact hp
  · rw [if_neg hc] at hq
    rcases List.mem_append.mp hq with hq | hq
    · exact Or.inl hq
    · exact Or.inr (List.mem_singleton.mp hq)

theorem buildEntries_mem_src : ∀ (ms : List (List Char × List Char)) (kv : List Char × List Char),
    kv ∈ buildEntries ms → ∃ m ∈ ms, kv = (pyStrip m.1, normalizeBody m.2) := by
  have aux : ∀ (ms : List (List Char × List Char)) (acc : List (List Char × List Char))
      (kv : List Char × List Char),
      kv ∈ ms.foldl (fun d m => insertEntry d (pyStrip m.1) (normalizeBody m.2)) acc →
      kv ∈ acc ∨ ∃ m ∈ ms, kv = (pyStrip m.1, normalizeBody m.2) := by
    intro ms
    induction ms with
    | nil => intro acc kv h; exact Or.inl h
    | cons m t ih =>
      intro acc kv h
      rw [List.foldl_cons] at h
      rcases ih _ kv h with h2 | h2
      · rcases insertEntry_mem kv h2 with h3 | h3
        · exact Or.inl h3
        · exact Or.inr ⟨m, List.mem_cons_self _ _, h3⟩
      · obtain ⟨m', hm', he⟩ := h2
        exact Or.inr ⟨m', List.mem_cons_of_mem _ hm', he⟩
  intro ms kv h
  rcases aux ms [] kv h with h2 | h2
  · cases h2
  · exact h2

theorem tryBibitem_some {cs k v rem : List Char}
    (h : tryBibitem cs = some (k, v, rem)) :
    ∃ r2 j, cs = bibitemLit ++ k ++ '}' :: r2 ∧ k ≠ [] ∧ (∀ x ∈ k, x ≠ '}') ∧
      contentEnd r2 = some j ∧ v = r2.take j ∧ rem = r2.drop j := by
  unfold tryBibitem at h
  split at h
  · rename_i htake
    by_cases hke : ((cs.drop 9).takeWhile (fun x => x != '}')).isEmpty
    · rw [if_pos hke] at h; cases h
    · rw [if_neg hke] at h
      split at h
      · rename_i r2 hdw
        split at h
        · rename_i j hce
          injection h with h
          injection h with h1 h
          injection h with h2 h3
          subst h1
          subst h2
          subst h3
          refine ⟨r2, j, ?_, ?_, ?_, hce, rfl, rfl⟩
          · have hsplit : cs = cs.take 9 ++ cs.drop 9 := (List.take_append_drop 9 cs).symm
            conv_lhs => rw [hsplit, htake, ← List.takeWhile_append_dropWhile
              (p := fun x => x != '}') (l := cs.drop 9), hdw]
            exact (List.append_assoc _ _ _).symm
          · intro hnil
            rw [hnil] at hke
            exact hke rfl
          · intro x hx
            have := List.mem_takeWhile_imp hx
            simpa using this
        · cases h
      · cases h
  · cases h

theorem contentEnd_le {r2 : List Char} {j i : Nat} (h : contentEnd r2 = some j)
    (hib : occursAt bibitemLit r2 i ∨ occursAt endLit r2 i) : j ≤ i := by
  unfold contentEnd at h
  rcases hib with hib | hib
  · obtain ⟨j1, hj1, hle⟩ := findLit_le_of_occursAt hib
    rw [hj1] at h
    cases hfe : findLit endLit r2 with
    | none =>
      rw [hfe] at h
      injection h with h
      omega
    | some b =>
      rw [hfe] at h
      injection h with h
      have := Nat.min_le_left j1 b
      omega
  · obtain ⟨j1, hj1, hle⟩ := findLit_le_of_occursAt hib
    rw [hj1] at h
    cases hfb : findLit bibitemLit r2 with
    | none =>
      rw [hfb] at h
      injection h with h
      omega
    | some b =>
      rw [hfb] at h
      injection h with h
      have := Nat.min_le_right b j1
      omega

theorem bibitemScanF_mem : ∀ (f : Nat) (cs : List Char) (m : List Char × List Char),
    m ∈ bibitemScanF f cs →
      m.1 ≠ [] ∧ (∀ x ∈ m.1, x ≠ '}') ∧ noOccur bibitemLit m.2 ∧ noOccur endLit m.2 := by
  intro f
  induction f with
  | zero => intro cs m hm; cases hm
  | succ f ih =>
    intro cs m hm
    cases cs with
    | nil => cases hm
    | cons c t =>
      rw [show bibitemScanF (f + 1) (c :: t) =
        (match tryBibitem (c :: t) with
        | some (k, v, rem) => (k, v) :: bibitemScanF f rem
        | none => bibitemScanF f t) from rfl] at hm
      cases htb : tryBibitem (c :: t) with
      | none =>
        rw [htb] at hm
        exact ih t m hm
      | some kvr =>
        rcases kvr with ⟨k, v, rem⟩
        rw [htb] at hm
        rcases List.mem_cons.mp hm with hm | hm
        · subst hm
          obtain ⟨r2, j, hcs, hk1, hk2, hce, hv, hrem⟩ := tryBibitem_some htb
          refine ⟨hk1, hk2, ?_, ?_⟩
          · intro i hi
            rw [hv] at hi
            have hocc := occursAt_take (by decide) hi
            have hlen := occursAt_length (show bibitemLit ≠ [] by decide) hi
            have hle := contentEnd_le hce (Or.inl hocc)
            rw [List.length_take] at hlen
            have : bibitemLit.length = 9 := rfl
            omega
          · intro i hi
            rw [hv] at hi
            have hocc := occursAt_take (by decide) hi
            have hlen := occursAt_length (show endLit ≠ [] by decide) hi
            have hle := contentEnd_le hce (Or.inr hocc)
            rw [List.length_take] at hlen
            have : endLit.length = 21 := rfl
            omega
        · exact ih rem m hm

theorem entries_facts {bs : List Char} :
    ∀ kv ∈ buildEntries (bibitemScan bs),
      pyStrip kv.1 = kv.1 ∧ (∀ x ∈ kv.1, x ≠ '}') ∧
        trimmed kv.2 ∧ hasPat kv.2 = false ∧
        noOccur bibitemLit kv.2 ∧ noOccur endLit kv.2 := by
  intro kv hkv
  obtain ⟨m, hm, hkveq⟩ := buildEntries_mem_src _ kv hkv
  obtain ⟨-, hk2, hno1, hno2⟩ := bibitemScanF_mem bs.length bs m hm
  subst hkveq
  refine ⟨pyStrip_idem _, ?_, trimmed_pyStrip _, ?_, ?_, ?_⟩
  · intro x hx
    exact hk2 x (pyStrip_subset x hx)
  · exact hasPat_pyStrip (hasPat_subBlank _)
  · exact noOccur_normalizeBody (by decide) (by decide) hno1
  · exact noOccur_normalizeBody (by decide) (by decide) hno2

/-! ### Composition of noOccur across newline-flanked junctions (claim C8) -/

theorem no_occursAt_of_elem {lit l : List Char} {i m : Nat} {c : Char}
    (hm : l[m]? = some c) (h1 : i ≤ m) (h2 : m < i + lit.length)
    (hne : lit[m - i]? ≠ some c) : ¬ occursAt lit l i := by
  intro h
  have hg := occursAt_getElem h (j := m - i) (by omega)
  rw [show i + (m - i) = m from by omega, hm] at hg
  exact hne hg.symm

theorem occursAt_of_drop {lit l rest : List Char} {i : Nat}
    (h : l.drop i = lit ++ rest) : occursAt lit l i := by
  unfold occursAt
  rw [h]
  exact List.take_left _ _

theorem occursAt_refl (lit : List Char) : occursAt lit lit 0 := by
  unfold occursAt
  rw [List.drop_zero]
  exact List.take_length _

theorem noOccur_nil {lit : List Char} (hlit : lit ≠ []) : noOccur lit [] := by
  intro i hi
  unfold occursAt at hi
  simp only [List.drop_nil, List.take_nil] at hi
  exact hlit hi.symm

theorem noOccur_of_findLit_none {lit l : List Char} (hlit : lit ≠ [])
    (h : findLit lit l = none) : noOccur lit l :=
  fun i => (findLit_none_iff hlit).mp h i

theorem noOccur_cons_newline {lit l : List Char} (hlit : lit ≠ []) (hnl : '\n' ∉ lit)
    (h : noOccur lit l) : noOccur lit ('\n' :: l) := by
  intro i hi
  cases i with
  | zero =>
    have ht := occursAt_zero_iff.mp hi
    cases lit with
    | nil => exact hlit rfl
    | cons a l' =>
      rw [show (a :: l').length = l'.length + 1 from rfl, List.take_succ_cons] at ht
      injection ht with h1 h2
      exact hnl (by rw [← h1]; exact List.mem_cons_self _ _)
  | succ i => exact h i (occursAt_succ_cons.mp hi)

theorem noOccur_append_flanked {lit A B : List Char} (_hlit : lit ≠ []) (hnl : '\n' ∉ lit)
    (hA : noOccur lit A) (hB : noOccur lit B) : noOccur lit (A ++ '\n' :: B) := by
  intro i hi
  by_cases h1 : i + lit.length ≤ A.length
  · exact hA i ((occursAt_append_left_iff h1).mp hi)
  · by_cases h2 : i ≤ A.length
    · refine no_occursAt_of_newline hnl ?_ h2 (by omega) hi
      rw [List.getElem?_append_right le_rfl]
      simp
    · have hsh : A ++ '\n' :: B = (A ++ ['\n']) ++ B := by simp
      rw [hsh] at hi
      have hidx : i = (A ++ ['\n']).length + (i - A.length - 1) := by
        simp only [List.length_append, List.length_cons, List.length_nil]
        omega
      rw [hidx] at hi
      exact hB _ (occursAt_shift.mp hi)

theorem noOccur_before {lit A B : List Char} (hnl : '\n' ∉ lit)
    (hA : noOccur lit (A ++ ['\n'])) :
    ∀ i < (A ++ ['\n']).length, ¬ occursAt lit ((A ++ ['\n']) ++ B) i := by
  intro i hi hocc
  by_cases hc : i + lit.length ≤ (A ++ ['\n']).length
  · exact hA i ((occursAt_append_left_iff hc).mp hocc)
  · simp only [List.length_append, List.length_cons, List.length_nil] at hi hc
    refine no_occursAt_of_newline hnl (m := A.length) ?_ (by omega) (by omega) hocc
    rw [List.getElem?_append_left (by simp), List.getElem?_append_right le_rfl]
    simp

theorem noOccur_joinBlank {lit : List Char} (hlit : lit ≠ []) (hnl : '\n' ∉ lit) :
    ∀ {fmts : List (List Char)}, (∀ x ∈ fmts, noOccur lit x) →
      noOccur lit (joinBlank fmts) := by
  intro fmts
  induction fmts with
  | nil => intro _; exact noOccur_nil hlit
  | cons x t ih =>
    intro h
    cases t with
    | nil => exact h x (List.mem_cons_self _ _)
    | cons y t' =>
      rw [show joinBlank (x :: y :: t') = x ++ '\n' :: ('\n' :: joinBlank (y :: t'))
        from rfl]
      refine noOccur_append_flanked hlit hnl (h x (List.mem_cons_self _ _)) ?_
      exact noOccur_cons_newline hlit hnl (ih (fun z hz => h z (List.mem_cons_of_mem _ hz)))

/-! ### The end marker does not occur inside a formatted entry (claim C8) -/

theorem fmtEntry_eq (k v : List Char) :
    fmtEntry k v = (bibitemLit ++ k ++ ['}']) ++ '\n' :: v := by
  simp [fmtEntry]

theorem noOccur_endLit_head {k : List Char} (hk : '\\' ∉ k) :
    noOccur endLit (bibitemLit ++ k ++ ['}']) := by
  intro i hi
  have h9 : bibitemLit.length = 9 := rfl
  have hlen := occursAt_length (show endLit ≠ [] by decide) hi
  have hLlen : (bibitemLit ++ k ++ ['}']).length = k.length + 10 := by
    simp only [List.length_append, List.length_cons, List.length_nil, h9]
    omega
  have h0 := occursAt_getElem hi (j := 0) (by decide)
  rw [Nat.add_zero] at h0
  have h0' : (bibitemLit ++ k ++ ['}'])[i]? = some '\\' := by
    rw [h0]; rfl
  by_cases hi9 : i < 9
  · by_cases hi0 : i = 0
    · subst hi0
      have h1 := occursAt_getElem hi (j := 1) (by decide)
      rw [Nat.zero_add] at h1
      rw [List.getElem?_append_left (by simp only [List.length_append, h9]; omega),
        List.getElem?_append_left (by rw [h9]; omega)] at h1
      have hb : bibitemLit[1]? = some 'b' := rfl
      have he : endLit[1]? = some 'e' := rfl
      rw [hb, he] at h1
      injection h1 with h1
      exact absurd h1 (by decide)
    · rw [List.getElem?_append_left (by simp only [List.length_append, h9]; omega),
        List.getElem?_append_left (by rw [h9]; omega)] at h0'
      have : ∀ jj, jj < 9 → 0 < jj → bibitemLit[jj]? ≠ some '\\' := by decide
      exact this i hi9 (by omega) h0'
  · by_cases hik : i < 9 + k.length
    · rw [List.getElem?_append_left (by simp only [List.length_append, h9]; omega),
        List.getElem?_append_right (by rw [h9]; omega)] at h0'
      exact hk (List.getElem?_mem h0')
    · by_cases hie : i = 9 + k.length
      · rw [List.getElem?_append_right (by simp only [List.length_append, h9]; omega)] at h0'
        rw [show i - (bibitemLit ++ k).length = 0 from by
          simp only [List.length_append, h9]; omega] at h0'
        simp at h0'
      · have : endLit.length = 21 := rfl
        omega

theorem noOccur_endLit_fmt {k v : List Char} (hk : '\\' ∉ k)
    (hv : noOccur endLit v) : noOccur endLit (fmtEntry k v) := by
  rw [fmtEntry_eq]
  exact noOccur_append_flanked (by decide) (by decide) (noOccur_endLit_head hk) hv

/-! ### Bibitem scanner structure lemmas (claim C8) -/

theorem tryBibitem_rem_lt {cs k v rem : List Char}
    (h : tryBibitem cs = some (k, v, rem)) : rem.length < cs.length := by
  obtain ⟨r2, j, hcs, -, -, -, -, hrem⟩ := tryBibitem_some h
  subst hrem
  rw [hcs]
  have h9 : bibitemLit.length = 9 := rfl
  simp only [List.length_append, List.length_cons, List.length_drop, h9]
  omega

theorem occursAt_zero_of_tryBibitem {cs : List Char} {x : List Char × List Char × List Char}
    (h : tryBibitem cs = some x) : occursAt bibitemLit cs 0 := by
  rcases x with ⟨k, v, rem⟩
  obtain ⟨r2, j, hcs, -, -, -, -, -⟩ := tryBibitem_some h
  rw [List.append_assoc] at hcs
  exact occursAt_of_drop (show cs.drop 0 = bibitemLit ++ (k ++ '}' :: r2) by
    rw [List.drop_zero, hcs])

theorem bibitemScanF_congr : ∀ (f g : Nat) (cs : List Char),
    cs.length ≤ f → cs.length ≤ g → bibitemScanF f cs = bibitemScanF g cs := by
  intro f
  induction f with
  | zero =>
    intro g cs h1 _
    have : cs = [] := List.length_eq_zero.mp (Nat.le_zero.mp h1)
    subst this
    cases g <;> rfl
  | succ f ih =>
    intro g cs h1 h2
    cases cs with
    | nil => cases g <;> rfl
    | cons c t =>
      cases g with
      | zero => simp at h2
      | succ g =>
        cases htb : tryBibitem (c :: t) with
        | none =>
          simp only [bibitemScanF, htb]
          have hf : t.length ≤ f := by simpa using Nat.lt_succ_iff.mp h1
          have hg : t.length ≤ g := by simpa using Nat.lt_succ_iff.mp h2
          exact ih g t hf hg
        | some kvr =>
          rcases kvr with ⟨k, v, rem⟩
          simp only [bibitemScanF, htb]
          have hlt := tryBibitem_rem_lt htb
          simp only [List.length_cons] at hlt h1 h2
          rw [ih g rem (by omega) (by omega)]

theorem bibitemScanF_eq_some {f : Nat} {c : Char} {t k v rem : List Char}
    (h : tryBibitem (c :: t) = some (k, v, rem)) :
    bibitemScanF (f + 1) (c :: t) = (k, v) :: bibitemScanF f rem := by
  simp only [bibitemScanF, h]

theorem bibitemScanF_eq_none {f : Nat} {c : Char} {t : List Char}
    (h : tryBibitem (c :: t) = none) :
    bibitemScanF (f + 1) (c :: t) = bibitemScanF f t := by
  simp only [bibitemScanF, h]

theorem tryBibitem_none_of_not_occursAt {cs : List Char}
    (h : ¬ occursAt bibitemLit cs 0) : tryBibitem cs = none := by
  unfold tryBibitem
  rw [if_neg]
  intro ht
  apply h
  rw [occursAt_zero_iff]
  exact ht

theorem bibitemScanF_noOccur : ∀ (f : Nat) (cs : List Char),
    noOccur bibitemLit cs → bibitemScanF f cs = [] := by
  intro f
  induction f with
  | zero => intro cs _; rfl
  | succ f ih =>
    intro cs h
    cases cs with
    | nil => rfl
    | cons c t =>
      rw [bibitemScanF_eq_none (tryBibitem_none_of_not_occursAt (h 0))]
      exact ih t (fun i hi => h (i + 1) (occursAt_succ_cons.mpr hi))

theorem bibitemScanF_skip : ∀ (A cs : List Char) (f : Nat),
    (∀ i < A.length, ¬ occursAt bibitemLit (A ++ cs) i) →
    bibitemScanF (A.length + f) (A ++ cs) = bibitemScanF f cs := by
  intro A
  induction A with
  | nil => intro cs f _; simp
  | cons a A' ih =>
    intro cs f h
    have hstep : tryBibitem ((a :: A') ++ cs) = none :=
      tryBibitem_none_of_not_occursAt (h 0 (by simp))
    rw [show (a :: A').length + f = (A'.length + f) + 1 from by
      simp only [List.length_cons]; omega]
    rw [List.cons_append] at hstep ⊢
    rw [bibitemScanF_eq_none hstep]
    apply ih
    intro i hi hocc
    refine h (i + 1) (by simp only [List.length_cons]; omega) ?_
    rw [List.cons_append]
    exact occursAt_succ_cons.mpr hocc

theorem bibitemScanF_ne : ∀ (f : Nat) (cs : List Char), bibitemScanF f cs ≠ [] →
    ∃ j, occursAt bibitemLit cs j := by
  intro f
  induction f with
  | zero => intro cs h; exact absurd rfl h
  | succ f ih =>
    intro cs h
    cases cs with
    | nil => exact absurd rfl h
    | cons c t =>
      cases htb : tryBibitem (c :: t) with
      | some kvr => exact ⟨0, occursAt_zero_of_tryBibitem htb⟩
      | none =>
        rw [bibitemScanF_eq_none htb] at h
        obtain ⟨j, hj⟩ := ih t h
        exact ⟨j + 1, occursAt_succ_cons.mpr hj⟩

/-! ### The scanner on a serialized entry list (claim C8) -/

theorem occursAt_of_drop_eq {lit l : List Char} {i : Nat} (h : l.drop i = lit) :
    occursAt lit l i := by
  unfold occursAt
  rw [h]
  exact List.take_length _

theorem contentEnd_eq {R : List Char} {j : Nat}
    (hocc : occursAt bibitemLit R j ∨ occursAt endLit R j)
    (hmin : ∀ i < j, ¬ occursAt bibitemLit R i ∧ ¬ occursAt endLit R i) :
    contentEnd R = some j := by
  unfold contentEnd
  rcases hocc with hocc | hocc
  · have hfb : findLit bibitemLit R = some j :=
      findLit_eq_of hocc (fun i hi => (hmin i hi).1)
    rw [hfb]
    cases hfe : findLit endLit R with
    | none => rfl
    | some b =>
      have hb := findLit_some_occursAt hfe
      have hjb : j ≤ b := by
        by_contra hlt
        exact (hmin b (by omega)).2 hb.1
      change some (min j b) = some j
      rw [min_eq_left hjb]
  · have hfe : findLit endLit R = some j :=
      findLit_eq_of hocc (fun i hi => (hmin i hi).2)
    rw [hfe]
    cases hfb : findLit bibitemLit R with
    | none => rfl
    | some a =>
      have ha := findLit_some_occursAt hfb
      have hja : j ≤ a := by
        by_contra hlt
        exact (hmin a (by omega)).1 ha.1
      change some (min a j) = some j
      rw [min_eq_right hja]

theorem tryBibitem_fmt {k R : List Char} {j : Nat} (hk1 : k ≠ [])
    (hk2 : ∀ x ∈ k, x ≠ '}') (hce : contentEnd R = some j) :
    tryBibitem (bibitemLit ++ (k ++ '}' :: R)) = some (k, R.take j, R.drop j) := by
  have h9 : bibitemLit.length = 9 := rfl
  have htake : (bibitemLit ++ (k ++ '}' :: R)).take 9 = bibitemLit := List.take_left' h9
  have hdrop : (bibitemLit ++ (k ++ '}' :: R)).drop 9 = k ++ '}' :: R := List.drop_left' h9
  have hkp : ∀ x ∈ k, (x != '}') = true := by
    intro x hx
    simpa using hk2 x hx
  have htw : (k ++ '}' :: R).takeWhile (fun x => x != '}') = k := by
    rw [List.takeWhile_append_of_pos hkp, List.takeWhile_cons]
    simp
  have hdw : (k ++ '}' :: R).dropWhile (fun x => x != '}') = '}' :: R := by
    rw [List.dropWhile_append,
      show (k.dropWhile (fun x => x != '}')) = [] from List.dropWhile_eq_nil_iff.mpr hkp]
    simp [List.dropWhile_cons]
  unfold tryBibitem
  rw [if_pos htake]
  simp only [hdrop, htw, hdw]
  rw [if_neg (by simp [List.isEmpty_iff, hk1])]
  split
  · rename_i r2 heq
    rw [heq] at hce
    injection hce with hce
    subst hce
    rfl
  · rename_i heq
    rw [heq] at hce
    cases hce

theorem bibitemScanF_eq_some_ne {f : Nat} {cs k v rem : List Char} (hcs : cs ≠ [])
    (h : tryBibitem cs = some (k, v, rem)) :
    bibitemScanF (f + 1) cs = (k, v) :: bibitemScanF f rem := by
  cases cs with
  | nil => exact absurd rfl hcs
  | cons c t => exact bibitemScanF_eq_some h

theorem bibitemLit_append_ne_nil (X : List Char) : bibitemLit ++ X ≠ [] := by
  intro h
  have hlen := congrArg List.length h
  have h9 : bibitemLit.length = 9 := rfl
  simp only [List.length_append, List.length_nil] at hlen
  omega

theorem bibitemScan_entries : ∀ (Pl : List (List Char × List Char)),
    (∀ p ∈ Pl, p.1 ≠ [] ∧ (∀ x ∈ p.1, x ≠ '}') ∧
      noOccur bibitemLit p.2 ∧ noOccur endLit p.2) →
    ∀ f, (joinBlank (Pl.map (fun p => fmtEntry p.1 p.2)) ++ '\n' :: endLit).length ≤ f →
    Pl ≠ [] →
    bibitemScanF f (joinBlank (Pl.map (fun p => fmtEntry p.1 p.2)) ++ '\n' :: endLit)
      = rawPairs Pl := by
  intro Pl
  induction Pl with
  | nil => intro _ f _ hne; exact absurd rfl hne
  | cons p t ih =>
    intro hfacts f hf _
    obtain ⟨hk1, hk2, hnb, hnend⟩ := hfacts p (List.mem_cons_self _ _)
    have h9 : bibitemLit.length = 9 := rfl
    cases t with
    | nil =>
      have hXeq : joinBlank ([p].map (fun p => fmtEntry p.1 p.2)) ++ '\n' :: endLit
          = bibitemLit ++ (p.1 ++ '}' :: ((('\n' :: p.2) ++ ['\n']) ++ endLit)) := by
        show fmtEntry p.1 p.2 ++ '\n' :: endLit = _
        simp [fmtEntry, List.append_assoc]
      have hA : noOccur endLit (('\n' :: p.2) ++ ['\n'])
          ∧ noOccur bibitemLit (('\n' :: p.2) ++ ['\n']) := by
        constructor
        · exact noOccur_cons_newline (by decide) (by decide)
            (noOccur_append_flanked (by decide) (by decide) hnend (noOccur_nil (by decide)))
        · exact noOccur_cons_newline (by decide) (by decide)
            (noOccur_append_flanked (by decide) (by decide) hnb (noOccur_nil (by decide)))
      have hocc : occursAt endLit ((('\n' :: p.2) ++ ['\n']) ++ endLit)
          ((('\n' :: p.2) ++ ['\n']).length) :=
        occursAt_of_drop_eq (List.drop_left' rfl)
      have hmin : ∀ i < (('\n' :: p.2) ++ ['\n']).length,
          ¬ occursAt bibitemLit ((('\n' :: p.2) ++ ['\n']) ++ endLit) i ∧
            ¬ occursAt endLit ((('\n' :: p.2) ++ ['\n']) ++ endLit) i := by
        intro i hi
        exact ⟨noOccur_before (by decide) hA.2 i hi, noOccur_before (by decide) hA.1 i hi⟩
      have hce : contentEnd ((('\n' :: p.2) ++ ['\n']) ++ endLit)
          = some (('\n' :: p.2) ++ ['\n']).length :=
        contentEnd_eq (Or.inr hocc) hmin
      have htb := tryBibitem_fmt hk1 hk2 hce
      cases f with
      | zero =>
        exfalso
        rw [hXeq] at hf
        simp only [List.length_append, List.length_cons] at hf
        omega
      | succ f' =>
        rw [hXeq, bibitemScanF_eq_some_ne (bibitemLit_append_ne_nil _) htb,
          List.take_left, List.drop_left]
        rw [bibitemScanF_noOccur f' endLit (noOccur_of_findLit_none (by decide) (by decide))]
        rfl
    | cons q t' =>
      obtain ⟨s, hs⟩ : ∃ s,
          joinBlank ((q :: t').map (fun p => fmtEntry p.1 p.2)) ++ '\n' :: endLit
            = fmtEntry q.1 q.2 ++ s := by
        cases t' with
        | nil => exact ⟨'\n' :: endLit, rfl⟩
        | cons r t'' =>
          refine ⟨('\n' :: '\n' ::
            joinBlank ((r :: t'').map (fun p => fmtEntry p.1 p.2))) ++ '\n' :: endLit, ?_⟩
          rw [show joinBlank ((q :: r :: t'').map (fun p => fmtEntry p.1 p.2))
            = fmtEntry q.1 q.2
              ++ '\n' :: '\n' :: joinBlank ((r :: t'').map (fun p => fmtEntry p.1 p.2))
            from rfl]
          rw [List.append_assoc]
      have hs2 : joinBlank ((q :: t').map (fun p => fmtEntry p.1 p.2)) ++ '\n' :: endLit
          = bibitemLit ++ (q.1 ++ '}' :: '\n' :: (q.2 ++ s)) := by
        rw [hs]
        simp [fmtEntry, List.append_assoc]
      have hXeq : joinBlank ((p :: q :: t').map (fun p => fmtEntry p.1 p.2)) ++ '\n' :: endLit
          = bibitemLit ++ (p.1 ++ '}' ::
              (((('\n' :: p.2) ++ ['\n']) ++ ['\n']) ++
                (joinBlank ((q :: t').map (fun p => fmtEntry p.1 p.2)) ++ '\n' :: endLit))) := by
        rw [show joinBlank ((p :: q :: t').map (fun p => fmtEntry p.1 p.2))
          = fmtEntry p.1 p.2
            ++ '\n' :: '\n' :: joinBlank ((q :: t').map (fun p => fmtEntry p.1 p.2))
          from rfl]
        simp [fmtEntry, List.append_assoc]
      have hAA : noOccur bibitemLit ((('\n' :: p.2) ++ ['\n']) ++ ['\n'])
          ∧ noOccur endLit ((('\n' :: p.2) ++ ['\n']) ++ ['\n']) := by
        constructor
        · exact noOccur_cons_newline (by decide) (by decide)
            (noOccur_append_flanked (by decide) (by decide)
              (noOccur_append_flanked (by decide) (by decide) hnb (noOccur_nil (by decide)))
              (noOccur_nil (by decide)))
        · exact noOccur_cons_newline (by decide) (by decide)
            (noOccur_append_flanked (by decide) (by decide)
              (noOccur_append_flanked (by decide) (by decide) hnend (noOccur_nil (by decide)))
              (noOccur_nil (by decide)))
      have hocc0 : occursAt bibitemLit
          (joinBlank ((q :: t').map (fun p => fmtEntry p.1 p.2)) ++ '\n' :: endLit) 0 :=
        occursAt_of_drop (by rw [List.drop_zero, hs2])
      have hocc : occursAt bibitemLit
          (((('\n' :: p.2) ++ ['\n']) ++ ['\n']) ++
            (joinBlank ((q :: t').map (fun p => fmtEntry p.1 p.2)) ++ '\n' :: endLit))
          ((('\n' :: p.2) ++ ['\n']) ++ ['\n']).length := by
        have hsh := occursAt_append_right
          (A := (('\n' :: p.2) ++ ['\n']) ++ ['\n']) hocc0
        rw [Nat.add_zero] at hsh
        exact hsh
      have hmin : ∀ i < ((('\n' :: p.2) ++ ['\n']) ++ ['\n']).length,
          ¬ occursAt bibitemLit
              (((('\n' :: p.2) ++ ['\n']) ++ ['\n']) ++
                (joinBlank ((q :: t').map (fun p => fmtEntry p.1 p.2)) ++ '\n' :: endLit)) i ∧
            ¬ occursAt endLit
              (((('\n' :: p.2) ++ ['\n']) ++ ['\n']) ++
                (joinBlank ((q :: t').map (fun p => fmtEntry p.1 p.2)) ++ '\n' :: endLit)) i := by
        intro i hi
        exact ⟨noOccur_before (by decide) hAA.1 i hi, noOccur_before (by decide) hAA.2 i hi⟩
      have hce := contentEnd_eq (Or.inl hocc) hmin
      have htb := tryBibitem_fmt hk1 hk2 hce
      cases f with
      | zero =>
        exfalso
        rw [hXeq] at hf
        simp only [List.length_append, List.length_cons] at hf
        omega
      | succ f' =>
        rw [hXeq, bibitemScanF_eq_some_ne (bibitemLit_append_ne_nil _) htb,
          List.take_left, List.drop_left]
        have hflen :
            (joinBlank ((q :: t').map (fun p => fmtEntry p.1 p.2)) ++ '\n' :: endLit).length
              ≤ f' := by
          rw [hXeq] at hf
          simp only [List.length_append, List.length_cons] at hf ⊢
          omega
        rw [ih (fun r hr => hfacts r (List.mem_cons_of_mem _ hr)) f' hflen (by simp)]
        rw [show ((('\n' :: p.2) ++ ['\n']) ++ ['\n']) = ('\n' :: p.2) ++ ['\n', '\n'] from by
          simp]
        rfl

/-! ### Rebuilding the entries from the raw matches (claim C8) -/

theorem dropWhile_append_all {p : Char → Bool} : ∀ {w l : List Char},
    (∀ x ∈ w, p x = true) → (w ++ l).dropWhile p = l.dropWhile p := by
  intro w
  induction w with
  | nil => intro l _; rfl
  | cons a w' ihw =>
    intro l hw
    rw [List.cons_append, List.dropWhile_cons, if_pos (hw a (List.mem_cons_self _ _))]
    exact ihw (fun x hx => hw x (List.mem_cons_of_mem _ hx))

theorem pyStrip_pad {v w1 w2 : List Char} (h1 : ∀ x ∈ w1, isPySpace x = true)
    (h2 : ∀ x ∈ w2, isPySpace x = true) (hv : trimmed v) :
    pyStrip (w1 ++ (v ++ w2)) = v := by
  unfold pyStrip
  rw [dropWhile_append_all h1]
  cases v with
  | nil =>
    rw [List.nil_append, List.dropWhile_eq_nil_iff.mpr h2]
    rfl
  | cons c v' =>
    have hne : isPySpace c = false := dropWhile_cons_eq_self hv.1
    rw [List.cons_append, List.dropWhile_cons, if_neg (by simp [hne])]
    rw [show c :: (v' ++ w2) = (c :: v') ++ w2 from rfl, List.reverse_append]
    rw [dropWhile_append_all (by intro x hx; exact h2 x (List.mem_reverse.mp hx))]
    rw [hv.2, List.reverse_reverse]

theorem rawPairs_roundtrip : ∀ {Pl : List (List Char × List Char)},
    (∀ p ∈ Pl, pyStrip p.1 = p.1 ∧ trimmed p.2 ∧ hasPat p.2 = false) →
    (rawPairs Pl).map (fun m => (pyStrip m.1, normalizeBody m.2)) = Pl := by
  intro Pl
  induction Pl with
  | nil => intro _; rfl
  | cons p t ihr =>
    intro h
    obtain ⟨hp1, hp2, hp3⟩ := h p (List.mem_cons_self _ _)
    have hval : ∀ w2, (∀ x ∈ w2, isPySpace x = true) →
        normalizeBody ('\n' :: (p.2 ++ w2)) = p.2 := by
      intro w2 hw2
      unfold normalizeBody
      rw [show '\n' :: (p.2 ++ w2) = ['\n'] ++ (p.2 ++ w2) from rfl]
      rw [pyStrip_pad
        (by intro x hx; simp only [List.mem_singleton] at hx; subst hx; decide) hw2 hp2]
      rw [subBlank_of_not_hasPat hp3, pyStrip_eq_self_of_trimmed hp2]
    cases t with
    | nil =>
      show [(pyStrip p.1, normalizeBody ('\n' :: (p.2 ++ ['\n'])))] = [p]
      rw [hp1, hval ['\n']
        (by intro x hx; simp only [List.mem_singleton] at hx; subst hx; decide)]
    | cons q t' =>
      show (pyStrip p.1, normalizeBody ('\n' :: (p.2 ++ ['\n', '\n'])))
          :: (rawPairs (q :: t')).map (fun m => (pyStrip m.1, normalizeBody m.2))
        = p :: q :: t'
      rw [hp1, hval ['\n', '\n']
          (by intro x hx; have hx2 : x = '\n' := (by simpa using hx); rw [hx2]; decide),
        ihr (fun r hr => h r (List.mem_cons_of_mem _ hr))]

theorem buildEntries_rawPairs {Pl : List (List Char × List Char)}
    (hfacts : ∀ p ∈ Pl, pyStrip p.1 = p.1 ∧ trimmed p.2 ∧ hasPat p.2 = false)
    (hnd : (Pl.map Prod.fst).Nodup) :
    buildEntries (rawPairs Pl) = Pl := by
  have hkeys : (rawPairs Pl).map (fun m => pyStrip m.1) = Pl.map Prod.fst := by
    conv_rhs => rw [← rawPairs_roundtrip hfacts]
    rw [List.map_map]
    exact List.map_congr_left (fun a _ => rfl)
  rw [buildEntries_of_nodup (by rw [hkeys]; exact hnd)]
  exact rawPairs_roundtrip hfacts

/-! ### The reconciled pair list (claim C8) -/

theorem assocFind_some_mem {β : Type} : ∀ {d : List (List Char × β)} {k : List Char} {v : β},
    assocFind d k = some v → (k, v) ∈ d := by
  intro d
  induction d with
  | nil => intro k v h; cases h
  | cons p t ihd =>
    intro k v h
    rcases p with ⟨a, w⟩
    rw [assocFind_cons] at h
    by_cases ha : a = k
    · rw [if_pos ha] at h
      injection h with h
      subst h
      subst ha
      exact List.mem_cons_self _ _
    · rw [if_neg ha] at h
      exact List.mem_cons_of_mem _ (ihd h)

theorem reconPairs_sub {order : List (List Char)} {entries : List (List Char × List Char)} :
    ∀ p ∈ reconPairs order entries, p ∈ entries := by
  intro p hp
  unfold reconPairs at hp
  rcases List.mem_append.mp hp with hp | hp
  · obtain ⟨k, hk, rfl⟩ := List.mem_map.mp hp
    have hsome := (List.mem_filter.mp hk).2
    obtain ⟨v, hv⟩ := Option.isSome_iff_exists.mp hsome
    rw [hv]
    exact assocFind_some_mem hv
  · exact List.mem_of_mem_filter hp

theorem map_fst_filter_key {β : Type} (q : List Char → Bool) :
    ∀ (d : List (List Char × β)),
    (d.filter (fun p => q p.1)).map Prod.fst = (d.map Prod.fst).filter q := by
  intro d
  induction d with
  | nil => rfl
  | cons p t ihd =>
    rw [List.filter_cons, List.map_cons, List.filter_cons]
    by_cases hq : q p.1 = true
    · rw [if_pos hq, if_pos hq, List.map_cons, ihd]
    · rw [if_neg hq, if_neg hq, ihd]

theorem reconPairs_keys (order : List (List Char)) (entries : List (List Char × List Char)) :
    (reconPairs order entries).map Prod.fst = reconciledKeys order entries := by
  unfold reconPairs reconciledKeys
  rw [List.map_append]
  congr 1
  · rw [List.map_map, usedKeys_eq,
      show (Prod.fst ∘ fun k => (k, (assocFind entries k).getD [])) = id from rfl,
      List.map_id]
  · exact map_fst_filter_key (fun k => !(decide (k ∈ usedKeys order entries))) entries

theorem reconciledKeys_nodup {order : List (List Char)}
    {entries : List (List Char × List Char)}
    (hnd : (entries.map Prod.fst).Nodup) (hord : order.Nodup) :
    (reconciledKeys order entries).Nodup :=
  (reconciledKeys_perm hnd hord).nodup_iff.mpr hnd

theorem reconPairs_values (order : List (List Char))
    {entries : List (List Char × List Char)} (hnd : (entries.map Prod.fst).Nodup) :
    ∀ p ∈ reconPairs order entries, assocFind entries p.1 = some p.2 := by
  intro p hp
  unfold reconPairs at hp
  rcases List.mem_append.mp hp with hp | hp
  · obtain ⟨k, hk, rfl⟩ := List.mem_map.mp hp
    have hsome := (List.mem_filter.mp hk).2
    obtain ⟨v, hv⟩ := Option.isSome_iff_exists.mp hsome
    show assocFind entries k = some ((assocFind entries k).getD [])
    rw [hv]
    rfl
  · exact assocFind_mem hnd (List.mem_of_mem_filter hp)

theorem assocFind_graph_eq {β : Type} {E F : List (List Char × β)}
    (hmem : ∀ k, k ∈ F.map Prod.fst ↔ k ∈ E.map Prod.fst)
    (hval : ∀ p ∈ F, assocFind E p.1 = some p.2) :
    ∀ k, assocFind F k = assocFind E k := by
  intro k
  cases hF : assocFind F k with
  | none =>
    have hk := assocFind_eq_none_iff.mp hF
    exact (assocFind_eq_none_iff.mpr (fun hmemE => hk ((hmem k).mpr hmemE))).symm
  | some v =>
    exact (hval (k, v) (assocFind_some_mem hF)).symm

theorem usedKeys_congr {order : List (List Char)} {E F : List (List Char × List Char)}
    (h : ∀ k, assocFind F k = assocFind E k) :
    usedKeys order F = usedKeys order E := by
  rw [usedKeys_eq, usedKeys_eq]
  exact List.filter_congr (fun k _ => by rw [h k])

theorem reconPairs_stable {order : List (List Char)} {E : List (List Char × List Char)}
    (hfind : ∀ k, assocFind (reconPairs order E) k = assocFind E k) :
    reconPairs order (reconPairs order E) = reconPairs order E := by
  have hused : usedKeys order (reconPairs order E) = usedKeys order E :=
    usedKeys_congr hfind
  have hpart1 : (order.filter (fun k => (assocFind (reconPairs order E) k).isSome)).map
      (fun k => (k, (assocFind (reconPairs order E) k).getD []))
      = (order.filter (fun k => (assocFind E k).isSome)).map
        (fun k => (k, (assocFind E k).getD [])) := by
    rw [List.filter_congr (fun k _ => by rw [hfind k])]
    exact List.map_congr_left (fun k hk => by rw [hfind k])
  have h1 : ((order.filter (fun k => (assocFind E k).isSome)).map
      (fun k => (k, (assocFind E k).getD []))).filter
        (fun p => !(decide (p.1 ∈ usedKeys order E))) = [] := by
    rw [List.filter_eq_nil_iff]
    intro a ha
    obtain ⟨k, hk, rfl⟩ := List.mem_map.mp ha
    have hused2 : (k, (assocFind E k).getD []).1 ∈ usedKeys order E := by
      rw [usedKeys_eq]
      exact hk
    simp [hused2]
  have h2 : (E.filter (fun p => !(decide (p.1 ∈ usedKeys order E)))).filter
      (fun p => !(decide (p.1 ∈ usedKeys order E)))
      = E.filter (fun p => !(decide (p.1 ∈ usedKeys order E))) := by
    rw [List.filter_eq_self]
    intro a ha
    exact (List.mem_filter.mp ha).2
  have hpart2 : (reconPairs order E).filter
      (fun p => !(decide (p.1 ∈ usedKeys order (reconPairs order E))))
      = E.filter (fun p => !(decide (p.1 ∈ usedKeys order E))) := by
    have hc : (reconPairs order E).filter
        (fun p => !(decide (p.1 ∈ usedKeys order (reconPairs order E))))
        = (reconPairs order E).filter
          (fun p => !(decide (p.1 ∈ usedKeys order E))) :=
      List.filter_congr (fun p h => by rw [hused])
    rw [hc]
    conv_lhs =>
      rw [show reconPairs order E
        = (order.filter (fun k => (assocFind E k).isSome)).map
            (fun k => (k, (assocFind E k).getD []))
          ++ E.filter (fun p => !(decide (p.1 ∈ usedKeys order E))) from rfl]
    rw [List.filter_append, h1, h2, List.nil_append]
  show (order.filter (fun k => (assocFind (reconPairs order E) k).isSome)).map
      (fun k => (k, (assocFind (reconPairs order E) k).getD []))
    ++ (reconPairs order E).filter
        (fun p => !(decide (p.1 ∈ usedKeys order (reconPairs order E))))
    = reconPairs order E
  rw [hpart1, hpart2]
  rfl

theorem createReordered_fmt {order : List (List Char)}
    {entries : List (List Char × List Char)} {opening : List Char}
    (hnd : (entries.map Prod.fst).Nodup) (hne : entries ≠ []) :
    createReorderedBibliography order entries opening
      = some (serializeBib opening
          ((reconPairs order entries).map (fun p => fmtEntry p.1 p.2))) := by
  rw [createReordered_some hne]
  have h1 : (matchPass order entries).1
      = (order.filter (fun k => (assocFind entries k).isSome)).map
          (fun k => fmtEntry k ((assocFind entries k).getD [])) := by
    rw [matchPass_eq]
    exact filterMap_eq_map_filter entries (fun k v => fmtEntry k v) order
  have h2 : ((entries.map Prod.fst).filter
        (fun k => !(decide (k ∈ usedKeys order entries)))).map
          (fun k => fmtEntry k ((assocFind entries k).getD []))
      = (entries.filter (fun p => !(decide (p.1 ∈ usedKeys order entries)))).map
          (fun p => fmtEntry p.1 p.2) :=
    filter_keys_fmt_eq hnd _
  have h3 : (reconPairs order entries).map (fun p => fmtEntry p.1 p.2)
      = (order.filter (fun k => (assocFind entries k).isSome)).map
          (fun k => fmtEntry k ((assocFind entries k).getD []))
        ++ (entries.filter (fun p => !(decide (p.1 ∈ usedKeys order entries)))).map
          (fun p => fmtEntry p.1 p.2) := by
    unfold reconPairs
    rw [List.map_append, List.map_map]
    congr 1
  rw [h1, h2, h3]

theorem orderedCitations_nodup (cs : List Char) : (orderedCitations cs).Nodup := by
  have hocc := citationOccurrences_pairwise cs
  have hfold := trackFold_sorted (citationOccurrences cs) [] hocc (by simp)
    List.Pairwise.nil (by intro a ha; cases ha)
  have hsorted : List.Pairwise (fun a b => a.2 < b.2) (findAllCitations cs) := hfold.2
  have hndf : ((findAllCitations cs).map Prod.fst).Nodup := hfold.1
  have hord : orderedCitations cs = (findAllCitations cs).map Prod.fst := by
    unfold orderedCitations getOrderedCitations
    rw [sortByPos_of_sorted hsorted]
  rw [hord]
  exact hndf

theorem insSorted_length (x : List Char × ℚ) : ∀ (t : List (List Char × ℚ)),
    (insSorted x t).length = t.length + 1 := by
  intro t
  induction t with
  | nil => rfl
  | cons y t' iht =>
    unfold insSorted
    by_cases h : y.2 < x.2
    · rw [if_pos h]
      simp only [List.length_cons, iht]
    · rw [if_neg h]
      simp only [List.length_cons]

theorem sortByPos_length : ∀ (l : List (List Char × ℚ)),
    (sortByPos l).length = l.length := by
  intro l
  induction l with
  | nil => rfl
  | cons x t iht =>
    unfold sortByPos at iht ⊢
    rw [List.foldr_cons, insSorted_length, iht]
    rfl

/-! ### Decomposition of a successful run (claim C8) -/

theorem createReordered_ne_nil {order : List (List Char)}
    {entries : List (List Char × List Char)} {opening nb : List Char}
    (h : createReorderedBibliography order entries opening = some nb) : entries ≠ [] := by
  intro hnil
  subst hnil
  cases h

theorem reorder_ok_decomp {d out : List Char}
    (h : reorderLatexBibliography d = Except.ok out) :
    ∃ ex nb, extractBibliographyEntries d = some ex ∧
      createReorderedBibliography (orderedCitations d) ex.entries ex.openingLine
        = some nb ∧
      ex.entries ≠ [] ∧
      (findAllCitations d).isEmpty = false ∧
      out = d.take ex.bibStart ++ nb ++ d.drop ex.bibEnd := by
  unfold reorderLatexBibliography at h
  split at h
  · cases h
  · rename_i hcit
    split at h
    · cases h
    · rename_i ex hx
      split at h
      · cases h
      · rename_i nb hc
        injection h with h
        exact ⟨ex, nb, hx, hc, createReordered_ne_nil hc, (by simpa using hcit), h.symm⟩

theorem opening_shape {d : List Char} {ex : BibExtract}
    (hex : extractBibliographyEntries d = some ex) :
    ∃ op2, ex.openingLine = beginLit ++ op2 ∧ ∀ x ∈ op2, x ≠ '\n' := by
  obtain ⟨bs, be0, h1, h2, hbs, hbe, hent, hop⟩ := extract_spec hex
  cases hfs : findLit beginLit ((d.drop bs).take (be0 + endLit.length - bs)) with
  | none =>
    rw [hfs] at hop
    have hop2 : ex.openingLine = beginLit := hop
    exact ⟨[], by rw [hop2, List.append_nil], by intro x hx; cases hx⟩
  | some i =>
    rw [hfs] at hop
    have hop2 : ex.openingLine
        = (((d.drop bs).take (be0 + endLit.length - bs)).drop i).takeWhile
            (fun x => x != '\n') := hop
    have hocc := (findLit_some_occursAt hfs).1
    have hsp : ((d.drop bs).take (be0 + endLit.length - bs)).drop i
        = beginLit ++ (((d.drop bs).take (be0 + endLit.length - bs)).drop i).drop
            beginLit.length := by
      conv_lhs => rw [← List.take_append_drop beginLit.length
        (((d.drop bs).take (be0 + endLit.length - bs)).drop i)]
      congr 1
    refine ⟨((((d.drop bs).take (be0 + endLit.length - bs)).drop i).drop
        beginLit.length).takeWhile (fun x => x != '\n'), ?_, ?_⟩
    · rw [hop2]
      conv_lhs => rw [hsp]
      rw [List.takeWhile_append_of_pos (by decide)]
    · intro x hx
      have := List.mem_takeWhile_imp hx
      simpa using this

theorem bs_le_be0 {d : List Char} {bs be0 : Nat}
    (h1 : findLit beginLit d = some bs) (_h2 : findLit endLit d = some be0)
    (hent : buildEntries (bibitemScan ((d.drop bs).take (be0 + endLit.length - bs))) ≠ []) :
    bs ≤ be0 := by
  by_contra hlt
  push_neg at hlt
  have hocc := (findLit_some_occursAt h1).1
  have hdropeq : d.drop bs = beginLit ++ (d.drop bs).drop beginLit.length := by
    conv_lhs => rw [← List.take_append_drop beginLit.length (d.drop bs)]
    congr 1
  have h21 : endLit.length = 21 := rfl
  have h23 : beginLit.length = 23 := rfl
  have hsec : (d.drop bs).take (be0 + endLit.length - bs)
      = beginLit.take (be0 + endLit.length - bs) := by
    rw [hdropeq]
    exact List.take_append_of_le_length (by rw [h23]; omega)
  have hscan : bibitemScanF ((d.drop bs).take (be0 + endLit.length - bs)).length
      ((d.drop bs).take (be0 + endLit.length - bs)) ≠ [] := by
    intro hnil
    apply hent
    unfold buildEntries bibitemScan
    rw [hnil]
    rfl
  obtain ⟨j, hj⟩ := bibitemScanF_ne _ _ hscan
  rw [hsec] at hj
  have hj2 := occursAt_take (show bibitemLit ≠ [] by decide) hj
  exact noOccur_of_findLit_none (show bibitemLit ≠ [] by decide)
    (show findLit bibitemLit beginLit = none by decide) j hj2

theorem findAll_nonempty_of_ordered {d d' : List Char}
    (h2 : orderedCitations d' = orderedCitations d)
    (hne : (findAllCitations d).isEmpty = false) :
    (findAllCitations d').isEmpty = false := by
  have hlen : (orderedCitations d).length = (findAllCitations d).length := by
    unfold orderedCitations getOrderedCitations
    rw [List.length_map, sortByPos_length]
  have hlen' : (orderedCitations d').length = (findAllCitations d').length := by
    unfold orderedCitations getOrderedCitations
    rw [List.length_map, sortByPos_length]
  by_contra hcon
  have htrue : (findAllCitations d').isEmpty = true := by
    cases hh : (findAllCitations d').isEmpty
    · exact absurd hh hcon
    · rfl
  have hnil : findAllCitations d' = [] := List.isEmpty_iff.mp htrue
  have h0 : (orderedCitations d').length = 0 := by rw [hlen', hnil]; rfl
  rw [h2, hlen] at h0
  have hdnil : findAllCitations d = [] := List.length_eq_zero.mp h0
  rw [List.isEmpty_iff.mpr hdnil] at hne
  cases hne

theorem extract_eq_of_findLit {d : List Char} {a b : Nat}
    (h1 : findLit beginLit d = some a) (h2 : findLit endLit d = some b) :
    extractBibliographyEntries d = some
      ⟨buildEntries (bibitemScan ((d.drop a).take (b + endLit.length - a))), a,
        b + endLit.length,
        match findLit beginLit ((d.drop a).take (b + endLit.length - a)) with
        | some i => (((d.drop a).take (b + endLit.length - a)).drop i).takeWhile
            (fun x => x != '\n')
        | none => beginLit⟩ := by
  unfold extractBibliographyEntries
  rw [h1, h2]

/-- Claim C8, amended: a successful run is a fixpoint of the operation
whenever the parsed entries are well-formed (nonempty keys without
backslashes), the opening line contains no entry or end marker, and the
rewrite preserves the resolved citation order.  Under these conditions a
second run on the output document succeeds and returns the output
unchanged. -/
theorem c8_idempotence (d d' : List Char) (ex : BibExtract)
    (hex : extractBibliographyEntries d = some ex)
    (h1 : reorderLatexBibliography d = Except.ok d')
    (h2 : orderedCitations d' = orderedCitations d)
    (h3 : ∀ kv ∈ ex.entries, kv.1 ≠ [] ∧ '\\' ∉ kv.1)
    (h4 : findLit bibitemLit ex.openingLine = none ∧
      findLit endLit ex.openingLine = none) :
    reorderLatexBibliography d' = Except.ok d' := by
  obtain ⟨ex2, nb, hx2, hc, hentne, hcit, hout⟩ := reorder_ok_decomp h1
  rw [hex] at hx2
  injection hx2 with hx2
  subst hx2
  obtain ⟨bs, be0, hfb, hfe, hbs, hbe, hent, hop⟩ := extract_spec hex
  rw [hbs, hbe] at hout
  obtain ⟨op2, hopeq, hop2nl⟩ := opening_shape hex
  have hEnd : (ex.entries.map Prod.fst).Nodup := by
    rw [hent]
    exact buildEntries_keys_nodup _
  have hordnd : (orderedCitations d).Nodup := orderedCitations_nodup d
  have hefacts : ∀ kv ∈ ex.entries,
      pyStrip kv.1 = kv.1 ∧ (∀ x ∈ kv.1, x ≠ '}') ∧ trimmed kv.2 ∧ hasPat kv.2 = false ∧
        noOccur bibitemLit kv.2 ∧ noOccur endLit kv.2 := by
    rw [hent]
    exact entries_facts
  obtain ⟨F, hF⟩ : ∃ F, F = reconPairs (orderedCitations d) ex.entries := ⟨_, rfl⟩
  have hc2 : createReorderedBibliography (orderedCitations d) ex.entries ex.openingLine
      = some (serializeBib ex.openingLine (F.map (fun p => fmtEntry p.1 p.2))) := by
    rw [hF]
    exact createReordered_fmt hEnd hentne
  rw [hc2] at hc
  injection hc with hc
  have hnbser : nb = serializeBib ex.openingLine (F.map (fun p => fmtEntry p.1 p.2)) :=
    hc.symm
  have hFsub : ∀ p ∈ F, p ∈ ex.entries := by
    rw [hF]
    exact reconPairs_sub
  have hFkeys : (F.map Prod.fst).Nodup := by
    rw [hF, reconPairs_keys]
    exact reconciledKeys_nodup hEnd hordnd
  have hFperm : List.Perm (F.map Prod.fst) (ex.entries.map Prod.fst) := by
    rw [hF, reconPairs_keys]
    exact reconciledKeys_perm hEnd hordnd
  have hFne : F ≠ [] := by
    intro hnil
    rw [hnil, List.map_nil] at hFperm
    have hmn := List.perm_nil.mp hFperm.symm
    rw [List.map_eq_nil_iff] at hmn
    exact hentne hmn
  have hfind : ∀ k, assocFind F k = assocFind ex.entries k := by
    rw [hF]
    exact assocFind_graph_eq
      (fun k => by rw [reconPairs_keys]; exact (reconciledKeys_perm hEnd hordnd).mem_iff)
      (reconPairs_values _ hEnd)
  have hstable : reconPairs (orderedCitations d) F = F := by
    rw [hF]
    apply reconPairs_stable
    intro k
    rw [← hF]
    exact hfind k
  have hoccb := (findLit_some_occursAt hfb).1
  have hminb := (findLit_some_occursAt hfb).2
  have hmine := (findLit_some_occursAt hfe).2
  have h23 : beginLit.length = 23 := rfl
  have h21 : endLit.length = 21 := rfl
  have hbsd : bs + beginLit.length ≤ d.length :=
    occursAt_length (show beginLit ≠ [] by decide) hoccb
  have hAlen : (d.take bs).length = bs := by
    rw [List.length_take]
    omega
  have hble : bs ≤ be0 := bs_le_be0 hfb hfe (by rw [← hent]; exact hentne)
  have hd2 : d' = d.take bs ++ (nb ++ d.drop (be0 + endLit.length)) := by
    rw [hout, List.append_assoc]
  have hfacts' : ∀ p ∈ F, p.1 ≠ [] ∧ (∀ x ∈ p.1, x ≠ '}') ∧
      noOccur bibitemLit p.2 ∧ noOccur endLit p.2 := by
    intro p hp
    exact ⟨(h3 p (hFsub p hp)).1, (hefacts p (hFsub p hp)).2.1,
      (hefacts p (hFsub p hp)).2.2.2.2.1, (hefacts p (hFsub p hp)).2.2.2.2.2⟩
  have hFround : ∀ p ∈ F, pyStrip p.1 = p.1 ∧ trimmed p.2 ∧ hasPat p.2 = false := by
    intro p hp
    exact ⟨(hefacts p (hFsub p hp)).1, (hefacts p (hFsub p hp)).2.2.1,
      (hefacts p (hFsub p hp)).2.2.2.1⟩
  have hnbZ : nb = beginLit ++ (op2 ++ ('\n' :: '\n' ::
      joinBlank (F.map (fun p => fmtEntry p.1 p.2)) ++ '\n' :: endLit)) := by
    rw [hnbser]
    unfold serializeBib
    rw [hopeq]
    simp [List.append_assoc]
  obtain ⟨P, hP⟩ : ∃ P, P = (ex.openingLine
      ++ '\n' :: '\n' :: joinBlank (F.map (fun p => fmtEntry p.1 p.2))) ++ ['\n'] :=
    ⟨_, rfl⟩
  have hnbP : nb = P ++ endLit := by
    rw [hnbser, hP]
    unfold serializeBib
    simp [List.append_assoc]
  have hopno_end : noOccur endLit ex.openingLine :=
    noOccur_of_findLit_none (by decide) h4.2
  have hopno_bib : noOccur bibitemLit ex.openingLine :=
    noOccur_of_findLit_none (by decide) h4.1
  have hJno : noOccur endLit (joinBlank (F.map (fun p => fmtEntry p.1 p.2))) := by
    refine noOccur_joinBlank (by decide) (by decide) ?_
    intro x hx
    obtain ⟨p, hp, rfl⟩ := List.mem_map.mp hx
    exact noOccur_endLit_fmt (h3 p (hFsub p hp)).2 (hfacts' p hp).2.2.2
  have hPno : noOccur endLit P := by
    rw [hP]
    have hsh2 : ((ex.openingLine ++ '\n' :: '\n' ::
          joinBlank (F.map (fun p => fmtEntry p.1 p.2))) ++ ['\n'])
        = ex.openingLine ++ '\n' :: ('\n' ::
            (joinBlank (F.map (fun p => fmtEntry p.1 p.2)) ++ ['\n'])) := by
      rw [List.append_assoc, List.cons_append, List.cons_append]
    rw [hsh2]
    exact noOccur_append_flanked (by decide) (by decide) hopno_end
      (noOccur_cons_newline (by decide) (by decide)
        (noOccur_append_flanked (by decide) (by decide) hJno (noOccur_nil (by decide))))
  have hd'drop : d'.drop bs = nb ++ d.drop (be0 + endLit.length) := by
    rw [hd2]
    exact List.drop_left' hAlen
  have hd'take : d'.take bs = d.take bs := by
    rw [hd2]
    exact List.take_left' hAlen
  have hd'dropZ : d'.drop bs = beginLit ++ ((op2 ++ ('\n' :: '\n' ::
      joinBlank (F.map (fun p => fmtEntry p.1 p.2)) ++ '\n' :: endLit))
        ++ d.drop (be0 + endLit.length)) := by
    rw [hd'drop, hnbZ, List.append_assoc]
  have hoccbegin : occursAt beginLit d' bs := occursAt_of_drop hd'dropZ
  have hd'bs : d'[bs]? = some '\\' := by
    have h0 : d'[bs + 0]? = some '\\' := by
      rw [← List.getElem?_drop, hd'dropZ, List.getElem?_append_left (by rw [h23]; omega)]
      rfl
    simpa using h0
  have hminbegin : ∀ i < bs, ¬ occursAt beginLit d' i := by
    intro i hi hocc2
    by_cases hin : i + beginLit.length ≤ bs
    · have h5 : occursAt beginLit (d.take bs) i := by
        rw [hd2] at hocc2
        exact (occursAt_append_left_iff (by rw [hAlen]; exact hin)).mp hocc2
      exact hminb i hi (occursAt_take (show beginLit ≠ [] by decide) h5)
    · refine no_occursAt_of_elem hd'bs (by omega) (by omega) ?_ hocc2
      have hne23 : ∀ jj, jj < 23 → 0 < jj → beginLit[jj]? ≠ some '\\' := by decide
      exact hne23 (bs - i) (by rw [h23] at hin; omega) (by omega)
  have hfbegin2 : findLit beginLit d' = some bs := findLit_eq_of hoccbegin hminbegin
  have hd'pre : d'.drop (bs + P.length) = endLit ++ d.drop (be0 + endLit.length) := by
    rw [hd2, hnbP, show d.take bs ++ ((P ++ endLit) ++ d.drop (be0 + endLit.length))
      = (d.take bs ++ P) ++ (endLit ++ d.drop (be0 + endLit.length)) from by
        simp [List.append_assoc]]
    exact List.drop_left' (by rw [List.length_append, hAlen])
  have hoccend2 : occursAt endLit d' (bs + P.length) := occursAt_of_drop hd'pre
  have hd'sl : d'[bs + P.length]? = some '\\' := by
    have h0 : d'[bs + P.length + 0]? = some '\\' := by
      rw [← List.getElem?_drop, hd'pre, List.getElem?_append_left (by rw [h21]; omega)]
      rfl
    simpa using h0
  have hminend2 : ∀ i < bs + P.length, ¬ occursAt endLit d' i := by
    intro i hi hocc2
    by_cases hin : i + endLit.length ≤ bs
    · have h5 : occursAt endLit (d.take bs) i := by
        rw [hd2] at hocc2
        exact (occursAt_append_left_iff (by rw [hAlen]; exact hin)).mp hocc2
      exact hmine i (by rw [h21] at hin; omega)
        (occursAt_take (show endLit ≠ [] by decide) h5)
    · by_cases hin2 : i < bs
      · refine no_occursAt_of_elem hd'bs (by omega) (by omega) ?_ hocc2
        have hne21 : ∀ jj, jj < 21 → 0 < jj → endLit[jj]? ≠ some '\\' := by decide
        exact hne21 (bs - i) (by rw [h21] at hin; omega) (by omega)
      · push_neg at hin2
        by_cases hin3 : i + endLit.length ≤ bs + P.length
        · have h8 : occursAt endLit d' ((d.take bs).length + (i - bs)) := by
            rw [hAlen, show bs + (i - bs) = i from by omega]
            exact hocc2
          rw [hd2] at h8
          have h7 := occursAt_shift.mp h8
          rw [hnbP, List.append_assoc] at h7
          refine hPno (i - bs) ((occursAt_append_left_iff ?_).mp h7)
          omega
        · refine no_occursAt_of_elem hd'sl (by omega) (by omega) ?_ hocc2
          have hne21 : ∀ jj, jj < 21 → 0 < jj → endLit[jj]? ≠ some '\\' := by decide
          exact hne21 (bs + P.length - i) (by rw [h21] at hin3; omega) (by omega)
  have hfend2 : findLit endLit d' = some (bs + P.length) :=
    findLit_eq_of hoccend2 hminend2
  have hsec2 : (d'.drop bs).take (bs + P.length + endLit.length - bs) = nb := by
    rw [hd'drop,
      show bs + P.length + endLit.length - bs = P.length + endLit.length from by omega,
      show P.length + endLit.length = nb.length from by rw [hnbP, List.length_append]]
    exact List.take_left _ _
  have hfbnb : findLit beginLit nb = some 0 := by
    apply findLit_eq_of
    · exact occursAt_of_drop (show nb.drop 0 = beginLit ++ (op2 ++ ('\n' :: '\n' ::
        joinBlank (F.map (fun p => fmtEntry p.1 p.2)) ++ '\n' :: endLit)) from by
          rw [List.drop_zero]; exact hnbZ)
    · intro i hi
      exact absurd hi (Nat.not_lt_zero i)
  have hopview : ∀ x ∈ ex.openingLine, (x != '\n') = true := by
    rw [hopeq]
    intro x hx
    rcases List.mem_append.mp hx with hx | hx
    · have hbl : ∀ y ∈ beginLit, (y != '\n') = true := by decide
      exact hbl x hx
    · simpa using hop2nl x hx
  have hopening2 : nb.takeWhile (fun x => x != '\n') = ex.openingLine := by
    rw [hnbser]
    unfold serializeBib
    rw [show (ex.openingLine ++ '\n' :: '\n' ::
        joinBlank (F.map (fun p => fmtEntry p.1 p.2))) ++ '\n' :: endLit
      = ex.openingLine ++ ('\n' :: ('\n' ::
          joinBlank (F.map (fun p => fmtEntry p.1 p.2)) ++ '\n' :: endLit)) from by
        simp [List.append_assoc]]
    rw [List.takeWhile_append_of_pos hopview, List.takeWhile_cons]
    simp
  have hscan_nb : bibitemScan nb = rawPairs F := by
    have hop1 : noOccur bibitemLit (ex.openingLine ++ '\n' :: ['\n']) :=
      noOccur_append_flanked (by decide) (by decide) hopno_bib
        (noOccur_cons_newline (by decide) (by decide) (noOccur_nil (by decide)))
    have hApre : noOccur bibitemLit ((ex.openingLine ++ ['\n']) ++ ['\n']) := by
      intro i hi
      rw [List.append_assoc] at hi
      exact hop1 i hi
    have hsplit : nb = (ex.openingLine ++ ['\n', '\n'])
        ++ (joinBlank (F.map (fun p => fmtEntry p.1 p.2)) ++ '\n' :: endLit) := by
      rw [hnbser]
      unfold serializeBib
      simp [List.append_assoc]
    have hshape : (ex.openingLine ++ ['\n', '\n'])
        = (ex.openingLine ++ ['\n']) ++ ['\n'] := by
      rw [List.append_assoc]
      rfl
    have hnoskip : ∀ i < (ex.openingLine ++ ['\n', '\n']).length,
        ¬ occursAt bibitemLit ((ex.openingLine ++ ['\n', '\n'])
          ++ (joinBlank (F.map (fun p => fmtEntry p.1 p.2)) ++ '\n' :: endLit)) i := by
      intro i hi
      rw [hshape] at hi ⊢
      exact noOccur_before (by decide) hApre i hi
    have hlen_nb : nb.length = (ex.openingLine ++ ['\n', '\n']).length
        + (joinBlank (F.map (fun p => fmtEntry p.1 p.2)) ++ '\n' :: endLit).length := by
      rw [hsplit, List.length_append]
    show bibitemScanF nb.length nb = rawPairs F
    rw [hlen_nb, hsplit]
    rw [bibitemScanF_skip _ _ _ hnoskip]
    exact bibitemScan_entries F hfacts' _ le_rfl hFne
  have hbuild : buildEntries (bibitemScan nb) = F := by
    rw [hscan_nb]
    exact buildEntries_rawPairs hFround hFkeys
  have hcreate2 : createReorderedBibliography (orderedCitations d) F ex.openingLine
      = some nb := by
    rw [createReordered_fmt hFkeys hFne, hstable, ← hnbser]
  have hcit2 : (findAllCitations d').isEmpty = false := findAll_nonempty_of_ordered h2 hcit
  have hex2 : extractBibliographyEntries d'
      = some ⟨F, bs, bs + P.length + endLit.length, ex.openingLine⟩ := by
    rw [extract_eq_of_findLit hfbegin2 hfend2, hsec2, hfbnb, hbuild,
      show ex.openingLine = nb.takeWhile (fun x => x != '\n') from hopening2.symm]
    rfl
  have hd'dropend : d'.drop (bs + P.length + endLit.length)
      = d.drop (be0 + endLit.length) := by
    rw [hd2, show d.take bs ++ (nb ++ d.drop (be0 + endLit.length))
      = (d.take bs ++ nb) ++ d.drop (be0 + endLit.length) from
        (List.append_assoc _ _ _).symm]
    refine List.drop_left' ?_
    rw [List.length_append, hAlen, hnbP, List.length_append]
    omega
  unfold reorderLatexBibliography
  rw [if_neg (by simp [hcit2])]
  rw [hex2]
  have hord2 : getOrderedCitations (findAllCitations d') = orderedCitations d := h2
  show (match createReorderedBibliography (getOrderedCitations (findAllCitations d'))
      F ex.openingLine with
    | none => Except.error ReorderError.emptyBibliography
    | some newBib =>
      Except.ok (d'.take bs ++ newBib ++ d'.drop (bs + P.length + endLit.length)))
    = Except.ok d'
  rw [hord2, hcreate2]
  show Except.ok (d'.take bs ++ nb ++ d'.drop (bs + P.length + endLit.length))
    = Except.ok d'
  rw [hd'take, hd'dropend, hd2, List.append_assoc]

/-- Claim C8, counterexample: the operation is not idempotent.  On a
document whose bibliography entries contain citation markers, the first
run reorders the entries, which changes the order in which the `\cite`
markers appear; the second run therefore resolves a different citation
order and reorders the block again, producing an output different from
its input. -/
theorem c8_counterexample :
    reorderLatexBibliography
        "\\begin\x7bthebibliography\x7d\x7b9\x7d\n\\bibitem\x7ba\x7d\n\\cite\x7bb\x7d\n\\bibitem\x7bb\x7d\n\\cite\x7ba\x7d\n\\end\x7bthebibliography\x7d".data
      = Except.ok
        "\\begin\x7bthebibliography\x7d\x7b9\x7d\n\n\\bibitem\x7bb\x7d\n\\cite\x7ba\x7d\n\n\\bibitem\x7ba\x7d\n\\cite\x7bb\x7d\n\\end\x7bthebibliography\x7d".data ∧
      reorderLatexBibliography
        "\\begin\x7bthebibliography\x7d\x7b9\x7d\n\n\\bibitem\x7bb\x7d\n\\cite\x7ba\x7d\n\n\\bibitem\x7ba\x7d\n\\cite\x7bb\x7d\n\\end\x7bthebibliography\x7d".data
      = Except.ok
        "\\begin\x7bthebibliography\x7d\x7b9\x7d\n\n\\bibitem\x7ba\x7d\n\\cite\x7bb\x7d\n\n\\bibitem\x7bb\x7d\n\\cite\x7ba\x7d\n\\end\x7bthebibliography\x7d".data ∧
      "\\begin\x7bthebibliography\x7d\x7b9\x7d\n\n\\bibitem\x7ba\x7d\n\\cite\x7bb\x7d\n\n\\bibitem\x7bb\x7d\n\\cite\x7ba\x7d\n\\end\x7bthebibliography\x7d".data
        ≠ "\\begin\x7bthebibliography\x7d\x7b9\x7d\n\n\\bibitem\x7bb\x7d\n\\cite\x7ba\x7d\n\n\\bibitem\x7ba\x7d\n\\cite\x7bb\x7d\n\\end\x7bthebibliography\x7d".data :=
  ⟨rfl, rfl, by decide⟩

/-- Witness for the amended C8 theorem at a concrete document: a document
citing outside the block is rewritten once, and the rewritten document is
a fixpoint of the operation. -/
theorem c8_idempotence_witness :
    reorderLatexBibliography
        "\\cite\x7ba\x7d\n\\begin\x7bthebibliography\x7d\x7b9\x7d\n\n\\bibitem\x7ba\x7d\nA1\n\\end\x7bthebibliography\x7d".data
      = Except.ok
        "\\cite\x7ba\x7d\n\\begin\x7bthebibliography\x7d\x7b9\x7d\n\n\\bibitem\x7ba\x7d\nA1\n\\end\x7bthebibliography\x7d".data :=
  c8_idempotence
    "\\cite\x7ba\x7d\n\\begin\x7bthebibliography\x7d\x7b9\x7d\n\\bibitem\x7ba\x7d\nA1\n\\end\x7bthebibliography\x7d".data
    "\\cite\x7ba\x7d\n\\begin\x7bthebibliography\x7d\x7b9\x7d\n\n\\bibitem\x7ba\x7d\nA1\n\\end\x7bthebibliography\x7d".data
    ⟨[("a".data, "A1".data)], 9, 72, "\\begin\x7bthebibliography\x7d\x7b9\x7d".data⟩
    rfl rfl rfl (by decide) ⟨by decide, by decide⟩

end BibSorter
